import Mathlib

/-!
Verification development for a Wordle tournament system.

Characters are modelled by their code points (`ℕ`); a word is a list of
code points and a feedback pattern is a list of `ℕ` entries drawn from
{0 = gray, 1 = yellow, 2 = green}.  Python's `Counter` of remaining
letters is modelled by a function `ℕ → ℤ` (counts may be decremented),
and fallible operations (which raise in Python) return `Option` or
`Except`.  Floating point arithmetic is modelled over `ℝ` (exact reals);
random sampling and preemptive interrupts are modelled by explicit
oracle parameters.
-/

abbrev Word := List ℕ

abbrev Pattern := List ℕ

/-- Python's `str.lower` on one character, restricted to the ASCII range
(the only case folding exercised by the repository's lexicons). -/
def lowerChar (c : ℕ) : ℕ :=
  if 65 ≤ c ∧ c ≤ 90 then c + 32 else c

/-- Lowercase a whole word. -/
def lowerWord (w : Word) : Word := w.map lowerChar

/-- Decrement a letter-count table at one letter (`remaining[g] -= 1`). -/
def decCount (cnt : ℕ → ℤ) (g : ℕ) : ℕ → ℤ :=
  fun c => if c = g then cnt c - 1 else cnt c

/-- Pass 1 of `wordle_env.feedback`: walk secret and guess in parallel,
mark greens (2), and decrement the matched letter's remaining count.
Returns the partial pattern and the remaining-count table. -/
def pass1 (cnt : ℕ → ℤ) : List ℕ → List ℕ → List ℕ × (ℕ → ℤ)
  | s :: ss, g :: gs =>
    if g = s then
      let r := pass1 (decCount cnt g) ss gs
      (2 :: r.1, r.2)
    else
      let r := pass1 cnt ss gs
      (0 :: r.1, r.2)
  | _, _ => ([], cnt)

/-- Pass 2 of `wordle_env.feedback`: for each non-green position, mark
yellow (1) and decrement when the guessed letter still has remaining
count > 0, else gray (0). -/
def pass2 (cnt : ℕ → ℤ) : List ℕ → List ℕ → List ℕ
  | p :: ps, g :: gs =>
    if p = 2 then 2 :: pass2 cnt ps gs
    else if cnt g > 0 then 1 :: pass2 (decCount cnt g) ps gs
    else 0 :: pass2 cnt ps gs
  | _, _ => []

/-- `wordle_env.feedback`: `none` models the `ValueError` raised on a
length mismatch; otherwise both strings are lowercased, pass 1 marks
greens against a remaining-count table built from the secret, and pass 2
marks yellows/grays. -/
def feedback (secret guess : Word) : Option Pattern :=
  if guess.length = secret.length then
    let s := lowerWord secret
    let g := lowerWord guess
    let r := pass1 (fun c => (s.count c : ℤ)) s g
    some (pass2 r.2 r.1 g)
  else none

/-- `wordle_env.filter_candidates`: keep the candidates whose feedback
against the guess equals the observed pattern.  `none` models the
`ValueError` that propagates when some candidate's length differs from
the guess's. -/
def filterCandidates (candidates : List Word) (guess : Word) (pattern : Pattern) :
    Option (List Word) :=
  if ∀ w ∈ candidates, w.length = guess.length then
    some (candidates.filter (fun w => feedback w guess = some pattern))
  else none

/-- Modelled from the spec, §4.1, pass 1: "for each position where
`guess[i] == secret[i]`, mark green and decrement that letter's
remaining count".  The remaining-count multiset is represented as the
list of secret letters not consumed by greens. -/
def refPass1 : List ℕ → List ℕ → List ℕ × List ℕ
  | a :: ss, b :: gs =>
    let r := refPass1 ss gs
    if b = a then (2 :: r.1, r.2) else (0 :: r.1, a :: r.2)
  | _, _ => ([], [])

/-- Modelled from the spec, §4.1, pass 2: "for each non-green position,
if the guessed letter still has remaining count > 0, mark yellow and
decrement; otherwise mark gray". -/
def refPass2 (rem : List ℕ) : List ℕ → List ℕ → List ℕ
  | p :: ps, b :: gs =>
    if p = 2 then 2 :: refPass2 rem ps gs
    else if b ∈ rem then 1 :: refPass2 (rem.erase b) ps gs
    else 0 :: refPass2 rem ps gs
  | _, _ => []

/-- Modelled from the spec, §4.1: the reference two-pass algorithm, read
literally off the spec's words (in particular with no lowercasing of its
inputs). -/
def refFeedback (secret guess : Word) : Pattern :=
  let r := refPass1 secret guess
  refPass2 r.2 r.1 guess

/-! ### Game session (`wordle_env.WordleEnv`) -/

/-- The state of one `WordleEnv` object: the immutable configuration
fixed by `__init__` plus the mutable per-game fields set by `reset`. -/
structure EnvState where
  vocab : List Word
  wordLength : ℕ
  maxGuesses : ℕ
  allowNonWords : Bool
  secret : Option Word
  history : List (Word × Pattern)
  solved : Bool
deriving DecidableEq, Repr

/-- The exceptions `WordleEnv.guess` can raise: `RuntimeError` for state
errors, `ValueError` for validation errors (and for the length mismatch
that `feedback` itself would raise on an ill-formed secret). -/
inductive GuessErr where
  | noGame
  | gameOver
  | badLength
  | notInVocab
  | secretMismatch
deriving DecidableEq, Repr

/-- `WordleEnv.game_over`. -/
def envGameOver (st : EnvState) : Bool :=
  st.solved || st.maxGuesses ≤ st.history.length

/-- `WordleEnv.reset(secret)` with an explicit secret: validate
membership in the vocabulary, then reinitialize the per-game state. -/
def envReset (st : EnvState) (secret : Word) : Option EnvState :=
  if secret ∈ st.vocab then
    some { st with secret := some secret, history := [], solved := false }
  else none

/-- `WordleEnv.guess(word)`: the returned state is the object's state
after the call (unchanged whenever an error is raised, since the source
method mutates `_history`/`_solved` only after every check has passed). -/
def envGuess (st : EnvState) (word : Word) : EnvState × Except GuessErr Pattern :=
  match st.secret with
  | none => (st, .error .noGame)
  | some secret =>
    if st.solved || st.maxGuesses ≤ st.history.length then
      (st, .error .gameOver)
    else
      let w := lowerWord word
      if w.length ≠ st.wordLength then
        (st, .error .badLength)
      else if !st.allowNonWords && w ∉ st.vocab then
        (st, .error .notInVocab)
      else
        match feedback secret w with
        | none => (st, .error .secretMismatch)
        | some pat =>
          ({ st with
              history := st.history ++ [(w, pat)],
              solved := st.solved || w = secret }, .ok pat)

/-! ### Lexicon probabilities (`lexicon.py`) -/

/-- `lexicon._sigmoid`, with its two numerically-motivated branches. -/
noncomputable def sigmoid (x : ℝ) : ℝ :=
  if 0 ≤ x then 1 / (1 + Real.exp (-x))
  else Real.exp x / (1 + Real.exp x)

/-- `lexicon._sigmoid_weights`: sigmoid of (steepness times centred
log-count), then normalize.  Word-keyed dicts are modelled as
association lists. -/
noncomputable def sigmoidWeights (rawCounts : List (Word × ℕ)) (steepness : ℝ) :
    List (Word × ℝ) :=
  if rawCounts = [] then []
  else
    let logCounts := rawCounts.map (fun wc => (wc.1, Real.log ((wc.2 : ℝ) + 1)))
    let mu := (logCounts.map (fun wl => wl.2)).sum / (logCounts.length : ℝ)
    let weights := logCounts.map (fun wl => (wl.1, sigmoid (steepness * (wl.2 - mu))))
    let total := (weights.map (fun wv => wv.2)).sum
    weights.map (fun wv => (wv.1, wv.2 / total))

/-- `load_lexicon`'s uniform mode: probability `1/N` for each word. -/
noncomputable def uniformProbs (words : List Word) : List (Word × ℝ) :=
  words.map (fun w => (w, 1 / (words.length : ℝ)))

/-- `lexicon.perturb_probabilities`: each probability is multiplied by a
factor `1 + epsilon` (the random draws are modelled by the `factors`
oracle, indexed by position), clamped below at `1e-12`, then the whole
map is renormalized. -/
noncomputable def perturbProbs (probs : List (Word × ℝ)) (factors : ℕ → ℝ) :
    List (Word × ℝ) :=
  let perturbed := probs.enum.map
    (fun ip => (ip.2.1, max (ip.2.2 * factors ip.1) (1 / 1000000000000)))
  let total := (perturbed.map (fun wv => wv.2)).sum
  perturbed.map (fun wv => (wv.1, wv.2 / total))

/-! ### Entropy strategy (`strategies/entropy_strat.py`) -/

/-- Association-list lookup, modelling Python dict access. -/
def lookupA {α β : Type} [DecidableEq α] : List (α × β) → α → Option β
  | [], _ => none
  | (k, v) :: rest, key => if key = k then some v else lookupA rest key

/-- The distinct values of a list in first-occurrence order (the key
order of a Python dict filled by one left-to-right scan). -/
def keysOf {α : Type} [DecidableEq α] (l : List α) : List α :=
  l.foldl (fun acc k => if k ∈ acc then acc else acc ++ [k]) []

/-- Partition candidates by the feedback pattern each would produce
against the guess (`precompute_trees.get_children`, and the partition
loops of both entropy evaluators).  Cells are keyed by `feedback · g`
and listed in first-occurrence order; within a cell, candidate order is
preserved. -/
def childrenOf (cands : List Word) (g : Word) : List (Option Pattern × List Word) :=
  (keysOf (cands.map (fun w => feedback w g))).map
    (fun k => (k, cands.filter (fun w => feedback w g = k)))

/-- One entropy summand `-p * log2 p`. -/
noncomputable def entTerm (p : ℝ) : ℝ := -(p * Real.logb 2 p)

/-- The live fallback's per-guess entropy (`EntropyStrategy.guess`):
each partition cell is weighted by its candidate *count* divided by the
evaluation-set size, and `H = -Σ p log2 p` over those fractions. -/
noncomputable def countEntropy (evalC : List Word) (g : Word) : ℝ :=
  ((childrenOf evalC g).map (fun pc =>
      entTerm ((pc.2.length : ℝ) / (evalC.length : ℝ)))).sum

/-- The live fallback's selection loop: start from
`(candidates[0], -1.0)` and replace the incumbent when a guess has
strictly larger entropy, or equal entropy while being a surviving
candidate when the incumbent is not. -/
noncomputable def selectBest (cands pool : List Word) (ent : Word → ℝ) : Word :=
  (pool.foldl (fun b g =>
      if ent g > b.2 ∨ (ent g = b.2 ∧ g ∈ cands ∧ b.1 ∉ cands) then (g, ent g) else b)
    (cands.headD [], -1)).1

/-- The candidate recomputation at the top of `EntropyStrategy.guess`:
filter the vocabulary through every past (guess, pattern) pair in
order.  (`filter_candidates`' length-mismatch exception cannot fire in
the strategy because the vocabulary is length-validated; candidates of
the wrong length are simply never kept.) -/
def liveCandidates (vocab : List Word) (history : List (Word × Pattern)) : List Word :=
  history.foldl (fun c gp => c.filter (fun w => feedback w gp.1 = some gp.2)) vocab

/-- `EntropyStrategy.guess`: decision-tree lookup on the pattern path,
else recompute candidates by filtering the vocabulary through the
history, handle the small-candidate short-circuits, cap the guess pool
and evaluation set (the random subsampling beyond the caps is modelled
by the `samplePool`/`sampleEval` oracles), and select by count-based
entropy. -/
noncomputable def entropyGuessLive (tree : List (List Pattern × Word)) (vocab : List Word)
    (history : List (Word × Pattern))
    (samplePool sampleEval : List Word → List Word) : Word :=
  let path := history.map (fun gp => gp.2)
  match lookupA tree path with
  | some w => w
  | none =>
    let candidates := liveCandidates vocab history
    if candidates = [] then vocab.headD []
    else if candidates.length ≤ 2 then candidates.headD []
    else
      let pool := if candidates.length ≤ 200 then candidates else samplePool candidates
      let evalC := if candidates.length ≤ 500 then candidates else sampleEval candidates
      selectBest candidates pool (countEntropy evalC)

/-- The guess-quality measure the spec's §4.3 words prescribe for the
live fallback: partition the evaluation set by feedback pattern, weight
each cell by its *normalized candidate probability mass*, and take
`H = -Σ p_k log2 p_k` over those masses. -/
noncomputable def specEntropy (wts : Word → ℝ) (cands : List Word) (g : Word) : ℝ :=
  ((childrenOf cands g).map (fun pc =>
      entTerm ((pc.2.map wts).sum
        / (((childrenOf cands g).map (fun qc => (qc.2.map wts).sum)).sum)))).sum

/-! ### Offline tree precomputation (`precompute_trees.py`) -/

/-- A selection state of the offline evaluators:
`(best_guess, best_ent, best_is_cand)`. -/
abbrev SelSt := Word × ℝ × Bool

/-- One entropy summand of `_eval_chunk`/`_compute_node`, with the
source's `if p > 0` guard. -/
noncomputable def entTermPos (p : ℝ) : ℝ :=
  if p > 0 then -(p * Real.logb 2 p) else 0

/-- The probability-weighted entropy of a guess against the candidate
set, exactly as `_eval_chunk` and `_compute_node` compute it: partition
masses are sums of candidate weights, normalized by the total of the
partition's values, with zero-mass cells skipped. -/
noncomputable def wEnt (wts : Word → ℝ) (cands : List Word) (g : Word) : ℝ :=
  ((childrenOf cands g).map (fun pc =>
      entTermPos ((pc.2.map wts).sum
        / (((childrenOf cands g).map (fun qc => (qc.2.map wts).sum)).sum)))).sum

/-- One iteration of `_eval_chunk`'s loop: the incumbent is `none`
before the first guess is scored. -/
noncomputable def chunkStep (wts : Word → ℝ) (cands : List Word)
    (b : Option SelSt) (g : Word) : Option SelSt :=
  let e := wEnt wts cands g
  let ic : Bool := decide (g ∈ cands)
  match b with
  | none => some (g, e, ic)
  | some s =>
    if e > s.2.1 ∨ (e = s.2.1 ∧ ic ∧ ¬s.2.2) then some (g, e, ic) else some s

/-- `_eval_chunk`: score every guess of the chunk and keep the best
`(guess, entropy, is_candidate)` triple. -/
noncomputable def evalChunk (chunk cands : List Word) (wts : Word → ℝ) : Option SelSt :=
  chunk.foldl (chunkStep wts cands) none

/-- `_compute_root`'s reduction step over one arriving chunk winner
(the `if g and (...)` update).  A `none` winner (empty chunk) leaves the
incumbent untouched. -/
noncomputable def rootReduceStep (b : SelSt) (w : Option SelSt) : SelSt :=
  match w with
  | none => b
  | some s =>
    if s.2.1 > b.2.1 ∨ (s.2.1 = b.2.1 ∧ s.2.2 ∧ ¬b.2.2) then s else b

/-- `_compute_root`'s reduction: fold the chunk winners, in their
arrival order, over the initial incumbent `(candidates[0], -1.0, True)`. -/
noncomputable def reduceWinners (cands : List Word) (winners : List (Option SelSt)) : SelSt :=
  winners.foldl rootReduceStep (cands.headD [], -1, true)

/-- The whole chunked root computation, with chunk winners reduced in
chunk (submission) order. -/
noncomputable def chunkedRoot (chunks : List (List Word)) (cands : List Word)
    (wts : Word → ℝ) : SelSt :=
  reduceWinners cands (chunks.map (fun ch => evalChunk ch cands wts))

/-- `_compute_node`: best guess for one deeper tree node, starting from
the incumbent `(candidates[0], -1.0, True)` and scanning the node's
guess pool. -/
noncomputable def computeNodeBest (cands pool : List Word) (wts : Word → ℝ) : SelSt :=
  pool.foldl (fun b g =>
      let e := wEnt wts cands g
      let ic : Bool := decide (g ∈ cands)
      if e > b.2.1 ∨ (e = b.2.1 ∧ ic ∧ ¬b.2.2) then (g, e, ic) else b)
    (cands.headD [], -1, true)

/-- A decision-tree path: the feedback patterns observed so far (cells
are keyed by `feedback · g`, hence `Option Pattern`). -/
abbrev TPath := List (Option Pattern)

/-- A checkpoint: the partial path-to-guess map, as an association
list. -/
abbrev Ckpt := List (TPath × Word)

/-- The recursive walk of `build_pending`: report a visited node whose
path is absent from the checkpoint, otherwise expand its children.  The
fuel argument `d` stands for `max_depth - len(path)`, so `d = 0` is the
source's `len(path) >= max_depth` cutoff. -/
def visitAux (ckpt : Ckpt) (mint : ℕ) : ℕ → TPath → List Word → List (TPath × List Word)
  | d, p, c =>
    if c.length ≤ 1 then []
    else
      match lookupA ckpt p with
      | none => [(p, c)]
      | some g =>
        match d with
        | 0 => []
        | d' + 1 =>
          ((childrenOf c g).map (fun pc =>
              if mint < pc.2.length then visitAux ckpt mint d' (p ++ [pc.1]) pc.2
              else [])).flatten

/-- `build_pending`: BFS-order recomputation of the still-uncomputed
nodes, starting from the root with the full vocabulary. -/
def buildPending (ckpt : Ckpt) (vocab : List Word) (maxd mint : ℕ) :
    List (TPath × List Word) :=
  visitAux ckpt mint maxd [] vocab

/-- The smallest path length among pending nodes (the depth the source
reads off the head of the `(len, path)`-sorted pending list). -/
def minPathLen : List (TPath × List Word) → ℕ
  | [] => 0
  | x :: xs => Nat.min x.1.length (minPathLen xs)

/-- One iteration of `build_tree`'s loop body: recompute the pending
set, take its lowest depth, and compute every node of that depth — the
root via the chunked pool evaluation (modelled by its submission-order
reduction), deeper nodes via `_compute_node` with the node's own
candidates as guess pool.  All computed guesses are written into the
checkpoint. -/
noncomputable def stepLevel (vocab : List Word) (wts : Word → ℝ) (maxd mint : ℕ)
    (ckpt : Ckpt) : Ckpt :=
  let pending := buildPending ckpt vocab maxd mint
  match pending with
  | [] => ckpt
  | _ :: _ =>
    let depth := minPathLen pending
    let level := pending.filter (fun x => x.1.length = depth)
    if depth = 0 ∧ level.length = 1 then
      let rootNode := level.headD ([], [])
      let best := reduceWinners rootNode.2 [evalChunk vocab rootNode.2 wts]
      ckpt ++ [(rootNode.1, best.1)]
    else
      ckpt ++ level.map (fun x => (x.1, (computeNodeBest x.2 x.2 wts).1))

/-- `build_tree`'s main loop: repeat `stepLevel` until no pending nodes
remain (with a fuel bound making the recursion explicit). -/
noncomputable def buildLoop (vocab : List Word) (wts : Word → ℝ) (maxd mint : ℕ) :
    ℕ → Ckpt → Ckpt
  | 0, ckpt => ckpt
  | f + 1, ckpt =>
    if buildPending ckpt vocab maxd mint = [] then ckpt
    else buildLoop vocab wts maxd mint f (stepLevel vocab wts maxd mint ckpt)

/-- The nodes `build_pending`'s walk can reach: the root carries the
full vocabulary; a reachable node that is already in the checkpoint,
has more than one candidate and lies above the depth limit is expanded
into its children, each kept when its candidate count exceeds the
expansion threshold. -/
inductive Reaches (ckpt : Ckpt) (vocab : List Word) (maxd mint : ℕ) :
    TPath → List Word → Prop
  | root : Reaches ckpt vocab maxd mint [] vocab
  | child (p : TPath) (c : List Word) (g : Word) (pat : Option Pattern)
      (cc : List Word) :
      Reaches ckpt vocab maxd mint p c →
      1 < c.length →
      lookupA ckpt p = some g →
      p.length < maxd →
      (pat, cc) ∈ childrenOf c g →
      mint < cc.length →
      Reaches ckpt vocab maxd mint (p ++ [pat]) cc

/-! ### Concrete example data for the entropy evaluators -/

/-- The word "abc". -/
def wABC : Word := [97, 98, 99]

/-- The word "bca". -/
def wBCA : Word := [98, 99, 97]

/-- The word "cab". -/
def wCAB : Word := [99, 97, 98]

/-- The rotation vocabulary {"abc", "bca", "cab"}: every guess splits
the other two candidates into a single cell, so all count-based
entropies coincide. -/
def vocabRot : List Word := [wABC, wBCA, wCAB]

/-- A probability assignment on the rotation vocabulary putting no mass
on "abc" and half on each of the others. -/
noncomputable def wtsRot : Word → ℝ :=
  fun w => if w = wABC then 0 else if w = wBCA then 1 / 2 else if w = wCAB then 1 / 2 else 0

/-! ### Tournament worker and leaderboard (`tournament.py`) -/

/-- `GameResult`. -/
structure GameResultM where
  strategy : String
  secret : Word
  numGuesses : ℕ
  solved : Bool
  timedOut : Bool
deriving DecidableEq, Repr

/-- One `end_game(secret, solved, num_guesses)` invocation. -/
abbrev EndCall := Word × Bool × ℕ

/-- The worker's inner turn loop (`while not env.game_over(): ...`),
with explicit fuel.  Strategies are modelled as pure functions from the
history to a word; an in-game exception from `env.guess` aborts the
whole worker (`none`), as an uncaught Python exception would. -/
def playLoop (g : List (Word × Pattern) → Word) (st : EnvState) : ℕ → Option EnvState
  | 0 => some st
  | f + 1 =>
    if envGameOver st then some st
    else
      let r := envGuess st (g st.history)
      match r.2 with
      | .ok _ => playLoop g r.1 f
      | .error _ => none

/-- `_run_strategy_worker`'s per-secret loop, threading the single
`WordleEnv` object through the games.  The preemptive `SIGALRM`
interrupt is modelled by the oracle `t`: `t i = some k` means game `i`
is cut off after `k` completed turns (scored as unsolved with
`max_guesses + 1` guesses and the `end_game` callback skipped), while
`t i = none` lets the game run to its terminal state, after which
`end_game` is invoked once. -/
def runWorkerAux (name : String) (g : List (Word × Pattern) → Word)
    (t : ℕ → Option ℕ) (env : EnvState) :
    ℕ → List Word → Option (List GameResultM × List EndCall)
  | _, [] => some ([], [])
  | i, sec :: rest =>
    match envReset env sec with
    | none => none
    | some st0 =>
      match t i with
      | some k =>
        match playLoop g st0 k with
        | none => none
        | some stPart =>
          match runWorkerAux name g t stPart (i + 1) rest with
          | none => none
          | some rc =>
            some (⟨name, sec, st0.maxGuesses + 1, false, true⟩ :: rc.1, rc.2)
      | none =>
        match playLoop g st0 (st0.maxGuesses + 1) with
        | none => none
        | some stFin =>
          match runWorkerAux name g t stFin (i + 1) rest with
          | none => none
          | some rc =>
            some (⟨name, sec, stFin.history.length, stFin.solved, false⟩ :: rc.1,
                  (sec, stFin.solved, stFin.history.length) :: rc.2)

/-- `_run_strategy_worker` over a round's secrets. -/
def runWorker (name : String) (g : List (Word × Pattern) → Word)
    (t : ℕ → Option ℕ) (env : EnvState) (secrets : List Word) :
    Option (List GameResultM × List EndCall) :=
  runWorkerAux name g t env 0 secrets

/-- One game run in isolation from a fresh reset (what "the remaining
secrets run normally" is compared against). -/
def singleGame (name : String) (g : List (Word × Pattern) → Word)
    (env : EnvState) (sec : Word) : Option GameResultM :=
  match envReset env sec with
  | none => none
  | some st0 =>
    match playLoop g st0 (st0.maxGuesses + 1) with
    | none => none
    | some stFin => some ⟨name, sec, stFin.history.length, stFin.solved, false⟩

/-- A per-round per-strategy summary entry: name and mean guesses
(floats are modelled by exact rationals). -/
abbrev StratMean := String × ℚ

/-- `compute_leaderboard`'s per-round ranking: sort strategies by mean
guesses, ascending. -/
def rankedByMean (strats : List StratMean) : List StratMean :=
  strats.mergeSort (fun a b => a.2 ≤ b.2)

/-- `compute_leaderboard`'s per-round point assignment (the `while i <
len(ranked)` loop): group the maximal run of strategies tied with the
head, award each the average of `n - k` over the run's 0-based
positions `k`, and continue after the run. -/
def awardAux (n : ℕ) (i : ℕ) (l : List StratMean) : List (StratMean × ℚ) :=
  match l with
  | [] => []
  | e :: rest =>
    let tied := rest.takeWhile (fun x => x.2 = e.2)
    let len := tied.length + 1
    let avg : ℚ := (((List.range len).map (fun k => (n : ℚ) - ((i + k : ℕ) : ℚ))).sum) / (len : ℚ)
    (e :: tied).map (fun x => (x, avg)) ++ awardAux n (i + len) (rest.drop tied.length)
termination_by l.length
decreasing_by
  simp only [List.length_cons, List.length_drop]
  omega

/-- The points `compute_leaderboard` awards within one round of `n`
strategies: rank ascending by mean guesses, then award `n - k` points at
0-based rank `k`, tied blocks sharing the block average. -/
def roundPoints (strats : List StratMean) : List (StratMean × ℚ) :=
  awardAux strats.length 0 (rankedByMean strats)

/-- A concrete three-strategy round with one tie, used to exercise the
leaderboard point rules on data. -/
def wStrats : List StratMean := [("alpha", 3), ("beta", 3), ("gamma", 4)]

/-! ### Basic lemmas about the kernel -/

theorem lowerChar_idem (c : ℕ) : lowerChar (lowerChar c) = lowerChar c := by
  unfold lowerChar
  split
  · rename_i h
    rw [if_neg]
    omega
  · rfl

theorem lowerWord_idem (w : Word) : lowerWord (lowerWord w) = lowerWord w := by
  unfold lowerWord
  rw [List.map_map]
  exact List.map_congr_left (fun c _ => lowerChar_idem c)

theorem lowerWord_length (w : Word) : (lowerWord w).length = w.length :=
  List.length_map w lowerChar

theorem feedback_isSome_iff (s g : Word) :
    (feedback s g).isSome = true ↔ g.length = s.length := by
  unfold feedback
  split
  · rename_i h
    simpa using h
  · rename_i h
    simpa using h

/-! ### C8: `filter_candidates` is idempotent -/

/-- C8: filtering a candidate list a second time by the same
(guess, pattern) pair changes nothing, because `filter_candidates`
keeps exactly the words whose feedback equals the pattern. -/
theorem filterCandidates_idempotent (c : List Word) (g : Word) (p : Pattern) :
    (filterCandidates c g p).bind (fun l => filterCandidates l g p) =
      filterCandidates c g p := by
  unfold filterCandidates
  by_cases h : ∀ w ∈ c, w.length = g.length
  · rw [if_pos h]
    have h2 : ∀ w ∈ c.filter (fun w => feedback w g = some p), w.length = g.length :=
      fun w hw => h w (List.mem_of_mem_filter hw)
    simp only [Option.some_bind]
    rw [if_pos h2, List.filter_filter]
    simp [Bool.and_self]
  · rw [if_neg h]
    rfl

/-! ### C9: `WordleEnv.guess` is atomic on failure -/

/-- C9: whenever `WordleEnv.guess` raises — a state error (no game
started, or game already over) or a validation error (wrong length, or
out-of-vocabulary under `allow_non_words = False`) — the session state
is exactly what it was before the call; and on a well-formed session
those are the only ways it can fail. -/
theorem envGuess_atomic (st : EnvState) (w : Word)
    (hwf : ∀ s, st.secret = some s → s.length = st.wordLength) :
    ((∃ e, (envGuess st w).2 = Except.error e) ↔
      (st.secret = none ∨ st.solved = true ∨ st.maxGuesses ≤ st.history.length ∨
        (lowerWord w).length ≠ st.wordLength ∨
        (st.allowNonWords = false ∧ lowerWord w ∉ st.vocab))) ∧
    (∀ e, (envGuess st w).2 = Except.error e → (envGuess st w).1 = st) := by
  cases hsec : st.secret with
  | none =>
    constructor
    · simp [envGuess, hsec]
    · intro e _
      simp [envGuess, hsec]
  | some sec =>
    have hlen : sec.length = st.wordLength := hwf sec hsec
    by_cases h1 : st.solved = true ∨ st.maxGuesses ≤ st.history.length
    · have h1b : (st.solved || decide (st.maxGuesses ≤ st.history.length)) = true := by
        rcases h1 with h | h <;> simp [h]
      constructor
      · simp only [envGuess, hsec, h1b, if_true]
        constructor
        · intro _
          tauto
        · intro _
          exact ⟨.gameOver, rfl⟩
      · intro e _
        simp [envGuess, hsec, h1b]
    · have h1b : (st.solved || decide (st.maxGuesses ≤ st.history.length)) = false := by
        push_neg at h1
        simp [h1.1, h1.2]
      by_cases h2 : (lowerWord w).length = st.wordLength
      · by_cases h3 : st.allowNonWords = false ∧ lowerWord w ∉ st.vocab
        · have h3b : (!st.allowNonWords && decide (lowerWord w ∉ st.vocab)) = true := by
            simp only [h3.1, Bool.not_false, Bool.true_and, decide_eq_true_eq]
            exact h3.2
          constructor
          · simp only [envGuess, hsec, h1b, Bool.false_eq_true, if_false]
            rw [if_neg (by simp [h2] : ¬(lowerWord w).length ≠ st.wordLength)]
            simp only [h3b, if_true]
            constructor
            · intro _
              tauto
            · intro _
              exact ⟨.notInVocab, rfl⟩
          · intro e _
            simp only [envGuess, hsec, h1b, Bool.false_eq_true, if_false]
            rw [if_neg (by simp [h2] : ¬(lowerWord w).length ≠ st.wordLength)]
            simp only [h3b, if_true]
        · have h3b : (!st.allowNonWords && decide (lowerWord w ∉ st.vocab)) = false := by
            cases ha : st.allowNonWords with
            | true => simp [ha]
            | false =>
              have hv : lowerWord w ∈ st.vocab := by
                by_contra hn
                exact h3 ⟨ha, hn⟩
              simp [ha, hv]
          have hfb : (feedback sec (lowerWord w)).isSome = true := by
            rw [feedback_isSome_iff]
            rw [h2, hlen]
          obtain ⟨pat, hpat⟩ := Option.isSome_iff_exists.mp hfb
          constructor
          · simp only [envGuess, hsec, h1b, Bool.false_eq_true, if_false]
            rw [if_neg (by simp [h2] : ¬(lowerWord w).length ≠ st.wordLength)]
            simp only [h3b, Bool.false_eq_true, if_false, hpat]
            constructor
            · rintro ⟨e, he⟩
              exact absurd he (by simp)
            · intro hcases
              rcases hcases with h | h | h | h | h
              · exact absurd h (by simp [hsec])
              · exact absurd h1 (by tauto)
              · exact absurd h1 (by tauto)
              · exact absurd h2 h
              · exact absurd h3 (by tauto)
          · intro e he
            exfalso
            revert he
            simp only [envGuess, hsec, h1b, Bool.false_eq_true, if_false]
            rw [if_neg (by simp [h2] : ¬(lowerWord w).length ≠ st.wordLength)]
            simp only [h3b, Bool.false_eq_true, if_false, hpat]
            simp
      · constructor
        · simp only [envGuess, hsec, h1b, Bool.false_eq_true, if_false]
          rw [if_pos (by simp [h2] : (lowerWord w).length ≠ st.wordLength)]
          constructor
          · intro _
            tauto
          · intro _
            exact ⟨.badLength, rfl⟩
        · intro e _
          simp only [envGuess, hsec, h1b, Bool.false_eq_true, if_false]
          rw [if_pos (by simp [h2] : (lowerWord w).length ≠ st.wordLength)]

/-- Witness for C9 at a concrete session. -/
theorem envGuess_atomic_witness :
    (∀ s, (EnvState.mk [[97]] 1 6 true (some [97]) [] false).secret = some s →
      s.length = (EnvState.mk [[97]] 1 6 true (some [97]) [] false).wordLength) ∧
    (((∃ e, (envGuess (EnvState.mk [[97]] 1 6 true (some [97]) [] false) [97, 98]).2 =
        Except.error e) ↔
      ((EnvState.mk [[97]] 1 6 true (some [97]) [] false).secret = none ∨
        (EnvState.mk [[97]] 1 6 true (some [97]) [] false).solved = true ∨
        (EnvState.mk [[97]] 1 6 true (some [97]) [] false).maxGuesses ≤
          (EnvState.mk [[97]] 1 6 true (some [97]) [] false).history.length ∨
        (lowerWord [97, 98]).length ≠
          (EnvState.mk [[97]] 1 6 true (some [97]) [] false).wordLength ∨
        ((EnvState.mk [[97]] 1 6 true (some [97]) [] false).allowNonWords = false ∧
          lowerWord [97, 98] ∉ (EnvState.mk [[97]] 1 6 true (some [97]) [] false).vocab))) ∧
    (∀ e, (envGuess (EnvState.mk [[97]] 1 6 true (some [97]) [] false) [97, 98]).2 =
        Except.error e →
      (envGuess (EnvState.mk [[97]] 1 6 true (some [97]) [] false) [97, 98]).1 =
        EnvState.mk [[97]] 1 6 true (some [97]) [] false)) :=
  ⟨fun s hs => by cases hs; rfl,
   envGuess_atomic (EnvState.mk [[97]] 1 6 true (some [97]) [] false) [97, 98]
     (fun s hs => by cases hs; rfl)⟩

/-! ### C10: case handling of the kernel -/

/-- C10 (amended): `feedback` is insensitive to the case of both inputs,
and a guess differing from the secret only in letter case solves the
game *provided the secret itself is lowercase* (as every
loader-produced vocabulary is); `WordleEnv.guess` compares the
lowercased guess against the stored secret verbatim. -/
theorem kernel_case_insensitive (s g : Word) (st : EnvState) (sec w : Word)
    (hsec : st.secret = some sec) (hmatch : lowerWord w = sec)
    (hsolved : st.solved = false) (hturns : st.history.length < st.maxGuesses)
    (hwl : sec.length = st.wordLength) (hallow : st.allowNonWords = true) :
    feedback s g = feedback (lowerWord s) (lowerWord g) ∧
    (envGuess st w).1.solved = true ∧
    (∃ pat, (envGuess st w).2 = Except.ok pat) := by
  have h1b : (st.solved || decide (st.maxGuesses ≤ st.history.length)) = false := by
    simp only [hsolved, Bool.false_or, decide_eq_false_iff_not]
    omega
  have hwlen : (lowerWord w).length = st.wordLength := by rw [hmatch, hwl]
  have hfb : (feedback sec (lowerWord w)).isSome = true := by
    rw [feedback_isSome_iff, hwlen, hwl]
  obtain ⟨pat, hpat⟩ := Option.isSome_iff_exists.mp hfb
  have h3b : (!st.allowNonWords && decide (lowerWord w ∉ st.vocab)) = false := by
    simp [hallow]
  refine ⟨?_, ?_, ?_⟩
  · simp only [feedback, lowerWord_idem, lowerWord_length]
  · simp only [envGuess, hsec, h1b, Bool.false_eq_true, if_false]
    rw [if_neg (by simp [hwlen] : ¬(lowerWord w).length ≠ st.wordLength)]
    simp only [h3b, Bool.false_eq_true, if_false, hpat]
    simp [hmatch]
  · refine ⟨pat, ?_⟩
    simp only [envGuess, hsec, h1b, Bool.false_eq_true, if_false]
    rw [if_neg (by simp [hwlen] : ¬(lowerWord w).length ≠ st.wordLength)]
    simp only [h3b, Bool.false_eq_true, if_false, hpat]

/-- Counterexample to C10 as stated: with an uppercase secret "AB" the
lowercase guess "ab" differs from the secret only in case, the call
succeeds and even returns an all-green pattern, yet the game is *not*
solved, because the lowercased guess is compared against the
non-lowercased stored secret. -/
theorem kernel_case_counterexample :
    lowerWord [97, 98] = lowerWord [65, 66] ∧
    (envGuess (EnvState.mk [[65, 66]] 2 6 true (some [65, 66]) [] false) [97, 98]).2 =
      Except.ok [2, 2] ∧
    (envGuess (EnvState.mk [[65, 66]] 2 6 true (some [65, 66]) [] false) [97, 98]).1.solved
      = false :=
  ⟨by decide, rfl, by decide⟩

/-- Witness for C10's amended theorem at a concrete session. -/
theorem kernel_case_insensitive_witness :
    ((EnvState.mk [[97, 98]] 2 6 true (some [97, 98]) [] false).secret = some [97, 98] ∧
      lowerWord [65, 98] = [97, 98]) ∧
    (feedback [65] [97] = feedback (lowerWord [65]) (lowerWord [97]) ∧
      (envGuess (EnvState.mk [[97, 98]] 2 6 true (some [97, 98]) [] false) [65, 98]).1.solved
        = true ∧
      (∃ pat,
        (envGuess (EnvState.mk [[97, 98]] 2 6 true (some [97, 98]) [] false) [65, 98]).2 =
          Except.ok pat)) :=
  ⟨⟨rfl, by decide⟩,
   kernel_case_insensitive [65] [97]
     (EnvState.mk [[97, 98]] 2 6 true (some [97, 98]) [] false) [97, 98] [65, 98]
     rfl (by decide) rfl (by decide) (by decide) rfl⟩

/-! ### C1: `feedback` versus the spec's reference algorithm -/

theorem pass1_rel (s : List ℕ) : ∀ (g : List ℕ), g.length = s.length →
    ∀ cnt : ℕ → ℤ,
      (pass1 cnt s g).1 = (refPass1 s g).1 ∧
      ∀ c, (pass1 cnt s g).2 c =
        cnt c - (s.count c : ℤ) + ((refPass1 s g).2.count c : ℤ) := by
  induction s with
  | nil =>
    intro g hg cnt
    rw [List.length_nil, List.length_eq_zero] at hg
    subst hg
    exact ⟨rfl, fun c => by simp [pass1, refPass1]⟩
  | cons a ss ih =>
    intro g hg cnt
    cases g with
    | nil => simp at hg
    | cons b gs =>
      have h' : gs.length = ss.length := by simpa using hg
      by_cases hba : b = a
      · obtain ⟨ih1, ih2⟩ := ih gs h' (decCount cnt b)
        constructor
        · simp only [pass1, refPass1, if_pos hba, ih1]
        · intro c
          simp only [pass1, refPass1, if_pos hba]
          rw [ih2 c]
          simp only [decCount, List.count_cons]
          subst hba
          by_cases hc : c = b
          · subst hc
            simp
            ring
          · rw [if_neg hc, if_neg (by simpa using Ne.symm hc)]
            push_cast
            ring
      · obtain ⟨ih1, ih2⟩ := ih gs h' cnt
        constructor
        · simp only [pass1, refPass1, if_neg hba, ih1]
        · intro c
          simp only [pass1, refPass1, if_neg hba]
          rw [ih2 c]
          simp only [List.count_cons]
          by_cases hc : c = a
          · subst hc
            simp
            ring
          · rw [if_neg (by simpa using Ne.symm hc : ¬(a == c) = true)]
            push_cast
            ring

theorem pass2_rel (pat : List ℕ) : ∀ (g : List ℕ) (rem : List ℕ) (cnt : ℕ → ℤ),
    (∀ c, cnt c = (rem.count c : ℤ)) → pass2 cnt pat g = refPass2 rem pat g := by
  induction pat with
  | nil => intro g rem cnt _; cases g <;> rfl
  | cons p ps ih =>
    intro g rem cnt hc
    cases g with
    | nil => rfl
    | cons b gs =>
      by_cases hp : p = 2
      · simp only [pass2, refPass2, if_pos hp]
        rw [ih gs rem cnt hc]
      · by_cases hb : cnt b > 0
        · have hcount : 0 < rem.count b := by
            have := hc b
            rw [this] at hb
            exact_mod_cast hb
          have hmem : b ∈ rem := List.count_pos_iff.mp hcount
          simp only [pass2, refPass2, if_neg hp, if_pos hb, if_pos hmem]
          congr 1
          apply ih
          intro c
          simp only [decCount, List.count_erase, hc c]
          by_cases hcb : c = b
          · subst hcb
            have hone : (if (c == c) = true then 1 else 0) = 1 := by simp
            rw [hone]
            omega
          · rw [if_neg hcb, if_neg (by simpa using Ne.symm hcb)]
            simp
        · have hmem : b ∉ rem := by
            intro hmem
            apply hb
            rw [hc b]
            exact_mod_cast List.count_pos_iff.mpr hmem
          simp only [pass2, refPass2, if_neg hp, if_neg hb, if_neg hmem]
          rw [ih gs rem cnt hc]

/-- C1 (amended): for every secret and guess of equal length, `feedback`
equals the spec's reference two-pass algorithm *applied to the
lowercased inputs* (so on lowercase inputs they agree verbatim), and in
particular `feedback("aabb", "abab") = (2, 1, 1, 2)`. -/
theorem feedback_matches_reference (s g : Word) (h : g.length = s.length) :
    feedback s g = some (refFeedback (lowerWord s) (lowerWord g)) ∧
    feedback [97, 97, 98, 98] [97, 98, 97, 98] = some [2, 1, 1, 2] := by
  constructor
  · unfold feedback refFeedback
    rw [if_pos (by simp [lowerWord_length, h])]
    have hlen' : (lowerWord g).length = (lowerWord s).length := by
      simp [lowerWord_length, h]
    obtain ⟨h1, h2⟩ :=
      pass1_rel (lowerWord s) (lowerWord g) hlen' (fun c => ((lowerWord s).count c : ℤ))
    dsimp only
    congr 1
    rw [h1]
    apply pass2_rel
    intro c
    rw [h2 c]
    ring
  · decide

/-- Counterexample to C1 as stated: for secret "A" and guess "a" (equal
lengths), `feedback` returns green while the reference algorithm read
literally — with no lowercasing — returns gray. -/
theorem feedback_reference_counterexample :
    ([97] : Word).length = ([65] : Word).length ∧
    feedback [65] [97] = some [2] ∧
    refFeedback [65] [97] = [0] ∧
    feedback [65] [97] ≠ some (refFeedback [65] [97]) := by decide

/-- Witness for C1's amended theorem on the spec's duplicate-letter
example. -/
theorem feedback_matches_reference_witness :
    ([97, 98, 97, 98] : Word).length = ([97, 97, 98, 98] : Word).length ∧
    (feedback [97, 97, 98, 98] [97, 98, 97, 98] =
        some (refFeedback (lowerWord [97, 97, 98, 98]) (lowerWord [97, 98, 97, 98])) ∧
      feedback [97, 97, 98, 98] [97, 98, 97, 98] = some [2, 1, 1, 2]) :=
  ⟨by decide, feedback_matches_reference [97, 97, 98, 98] [97, 98, 97, 98] (by decide)⟩

/-! ### C7: probability distributions sum to 1 -/

theorem list_sum_map_div (l : List ℝ) (t : ℝ) :
    (l.map (fun x => x / t)).sum = l.sum / t := by
  induction l with
  | nil => simp
  | cons x xs ih => simp [ih, add_div]

theorem list_pair_norm_sum (l : List (Word × ℝ)) (t : ℝ) :
    ((l.map (fun wv => (wv.1, wv.2 / t))).map (fun wv => wv.2)).sum =
      (l.map (fun wv => wv.2)).sum / t := by
  induction l with
  | nil => simp
  | cons x xs ih =>
    simp only [List.map_cons, List.sum_cons, add_div, ← ih]

theorem list_sum_map_const {α : Type} (l : List α) (x : ℝ) :
    (l.map (fun _ => x)).sum = l.length * x := by
  induction l with
  | nil => simp
  | cons a t ih =>
    simp [ih]
    ring

theorem sigmoid_pos (x : ℝ) : 0 < sigmoid x := by
  unfold sigmoid
  split
  · exact div_pos one_pos (by positivity)
  · exact div_pos (Real.exp_pos x) (by positivity)

/-- C7: every probability distribution the lexicon layer constructs sums
to 1 (exactly, in the real-number model): the uniform mode, the
sigmoid-of-log-frequency mode, and `perturb_probabilities` for any
multiplicative noise factors `1 + epsilon` with
`epsilon ∈ [-noise_scale, noise_scale]`. -/
theorem lexicon_sums_to_one :
    (∀ ws : List Word, ws ≠ [] →
      ((uniformProbs ws).map (fun wv => wv.2)).sum = 1) ∧
    (∀ (rc : List (Word × ℕ)) (steep : ℝ), rc ≠ [] →
      ((sigmoidWeights rc steep).map (fun wv => wv.2)).sum = 1) ∧
    (∀ (probs : List (Word × ℝ)) (factors : ℕ → ℝ) (ns : ℝ), probs ≠ [] →
      (∀ i, 1 - ns ≤ factors i ∧ factors i ≤ 1 + ns) →
      ((perturbProbs probs factors).map (fun wv => wv.2)).sum = 1) := by
  refine ⟨?_, ?_, ?_⟩
  · intro ws hne
    have hlen : 0 < ws.length := List.length_pos.mpr hne
    unfold uniformProbs
    rw [List.map_map]
    have : ((fun wv : Word × ℝ => wv.2) ∘ fun w => (w, 1 / (ws.length : ℝ))) =
        fun _ => 1 / (ws.length : ℝ) := rfl
    rw [this, list_sum_map_const]
    have hne' : (ws.length : ℝ) ≠ 0 := by positivity
    field_simp
  · intro rc steep hne
    unfold sigmoidWeights
    rw [if_neg hne]
    set logCounts := rc.map (fun wc => (wc.1, Real.log ((wc.2 : ℝ) + 1))) with hlc
    set mu := (logCounts.map (fun wl => wl.2)).sum / (logCounts.length : ℝ) with hmu
    set weights := logCounts.map (fun wl => (wl.1, sigmoid (steep * (wl.2 - mu)))) with hw
    set total := (weights.map (fun wv => wv.2)).sum with ht
    have hwne : weights ≠ [] := by
      simp [hw, hlc]
      exact hne
    have hpos : ∀ x ∈ weights.map (fun wv => wv.2), 0 < x := by
      intro x hx
      obtain ⟨wv, hwv, hxeq⟩ := List.mem_map.mp hx
      obtain ⟨wl, _, hwleq⟩ := List.mem_map.mp (hw ▸ hwv)
      rw [← hxeq, ← hwleq]
      exact sigmoid_pos _
    have htpos : 0 < total := by
      rw [ht]
      apply List.sum_pos _ hpos
      simpa using hwne
    rw [list_pair_norm_sum, ← ht]
    exact div_self (ne_of_gt htpos)
  · intro probs factors ns hne _
    unfold perturbProbs
    set perturbed := probs.enum.map
      (fun ip => (ip.2.1, max (ip.2.2 * factors ip.1) (1 / 1000000000000)))
      with hp
    set total := (perturbed.map (fun wv => wv.2)).sum with ht
    have hpne : perturbed ≠ [] := by
      simp [hp]
      intro hcon
      exact hne (by simpa using congrArg List.length hcon)
    have hpos : ∀ x ∈ perturbed.map (fun wv => wv.2), 0 < x := by
      intro x hx
      obtain ⟨wv, hwv, hxeq⟩ := List.mem_map.mp hx
      obtain ⟨ip, _, hipeq⟩ := List.mem_map.mp (hp ▸ hwv)
      rw [← hxeq, ← hipeq]
      have : (0 : ℝ) < 1 / 1000000000000 := by norm_num
      exact lt_of_lt_of_le this (le_max_right _ _)
    have htpos : 0 < total := by
      rw [ht]
      apply List.sum_pos _ hpos
      simpa using hpne
    rw [list_pair_norm_sum, ← ht]
    exact div_self (ne_of_gt htpos)

/-- Witness for C7 on concrete one-word inputs. -/
theorem lexicon_sums_to_one_witness :
    ((uniformProbs [[97]]).map (fun wv => wv.2)).sum = 1 ∧
    ((sigmoidWeights [([97], 5)] 2).map (fun wv => wv.2)).sum = 1 ∧
    ((perturbProbs [([97], 1)] (fun _ => 1)).map (fun wv => wv.2)).sum = 1 :=
  ⟨lexicon_sums_to_one.1 [[97]] (by decide),
   lexicon_sums_to_one.2.1 [([97], 5)] 2 (by decide),
   lexicon_sums_to_one.2.2 [([97], 1)] (fun _ => 1) 1 (by decide)
     (fun i => ⟨by norm_num, by norm_num⟩)⟩

/-! ### C6: worker timeout handling -/

theorem envGuess_ok (st : EnvState) (w : Word) (s : Word)
    (hs : st.secret = some s) (hslen : s.length = st.wordLength)
    (hgo : envGameOver st = false)
    (hw : w.length = st.wordLength) (hallow : st.allowNonWords = true) :
    envGuess st w = ({ st with
        history := st.history ++ [(lowerWord w, (feedback s (lowerWord w)).getD [])],
        solved := st.solved || decide (lowerWord w = s) },
      Except.ok ((feedback s (lowerWord w)).getD [])) := by
  have h1b : (st.solved || decide (st.maxGuesses ≤ st.history.length)) = false := by
    simpa [envGameOver] using hgo
  have hwlen : (lowerWord w).length = st.wordLength := by
    rw [lowerWord_length, hw]
  have hfb : (feedback s (lowerWord w)).isSome = true := by
    rw [feedback_isSome_iff, hwlen, hslen]
  obtain ⟨pat, hpat⟩ := Option.isSome_iff_exists.mp hfb
  have h3b : (!st.allowNonWords && decide (lowerWord w ∉ st.vocab)) = false := by
    simp [hallow]
  simp only [envGuess, hs, h1b, Bool.false_eq_true, if_false]
  rw [if_neg (by simp [hwlen] : ¬(lowerWord w).length ≠ st.wordLength)]
  simp only [h3b, Bool.false_eq_true, if_false, hpat]
  simp

theorem playLoop_ok (g : List (Word × Pattern) → Word) (env0 : EnvState)
    (hg : ∀ h, (g h).length = env0.wordLength) (hallow : env0.allowNonWords = true)
    (fuel : ℕ) :
    ∀ (st : EnvState),
      st.vocab = env0.vocab → st.wordLength = env0.wordLength →
      st.maxGuesses = env0.maxGuesses → st.allowNonWords = env0.allowNonWords →
      (∃ s, st.secret = some s ∧ s.length = env0.wordLength) →
      ∃ st', playLoop g st fuel = some st' ∧
        st'.vocab = env0.vocab ∧ st'.wordLength = env0.wordLength ∧
        st'.maxGuesses = env0.maxGuesses ∧ st'.allowNonWords = env0.allowNonWords ∧
        (∃ s, st'.secret = some s ∧ s.length = env0.wordLength) := by
  induction fuel with
  | zero =>
    intro st hv hwl hmg haw hsec
    exact ⟨st, rfl, hv, hwl, hmg, haw, hsec⟩
  | succ f ih =>
    intro st hv hwl hmg haw hsec
    by_cases hgo : envGameOver st = true
    · refine ⟨st, ?_, hv, hwl, hmg, haw, hsec⟩
      simp [playLoop, hgo]
    · have hgo' : envGameOver st = false := by
        simpa using hgo
      obtain ⟨s, hs, hslen⟩ := hsec
      have hgl : (g st.history).length = st.wordLength := by
        rw [hg st.history, hwl]
      have heq := envGuess_ok st (g st.history) s hs (by rw [hslen, hwl]) hgo' hgl
        (by rw [haw, hallow])
      obtain ⟨st', hplay, hrest⟩ := ih
        ({ st with
            history := st.history ++
              [(lowerWord (g st.history), (feedback s (lowerWord (g st.history))).getD [])],
            solved := st.solved || decide (lowerWord (g st.history) = s) })
        hv hwl hmg haw ⟨s, hs, hslen⟩
      refine ⟨st', ?_, hrest⟩
      rw [playLoop]
      rw [if_neg (by simp [hgo'] : ¬envGameOver st = true)]
      simp only [heq]
      exact hplay

theorem runWorkerAux_spec (name : String) (g : List (Word × Pattern) → Word)
    (t : ℕ → Option ℕ) (env0 : EnvState)
    (hvoc : ∀ w ∈ env0.vocab, w.length = env0.wordLength)
    (hg : ∀ h, (g h).length = env0.wordLength)
    (hallow : env0.allowNonWords = true) :
    ∀ (secrets : List Word) (i : ℕ) (env : EnvState),
      env.vocab = env0.vocab → env.wordLength = env0.wordLength →
      env.maxGuesses = env0.maxGuesses → env.allowNonWords = env0.allowNonWords →
      (∀ sec ∈ secrets, sec ∈ env0.vocab) →
      ∃ results calls, runWorkerAux name g t env i secrets = some (results, calls) ∧
        results.length = secrets.length ∧
        (∀ j, j < secrets.length → (t (i + j)).isSome = true →
          results.getD j (GameResultM.mk "" [] 0 false false) =
            GameResultM.mk name (secrets.getD j []) (env0.maxGuesses + 1) false true) ∧
        (∀ j, j < secrets.length → t (i + j) = none →
          some (results.getD j (GameResultM.mk "" [] 0 false false)) =
            singleGame name g env0 (secrets.getD j [])) ∧
        calls = (List.range secrets.length).filterMap (fun j =>
          match t (i + j) with
          | some _ => none
          | none => some (secrets.getD j [],
              (results.getD j (GameResultM.mk "" [] 0 false false)).solved,
              (results.getD j (GameResultM.mk "" [] 0 false false)).numGuesses)) := by
  intro secrets
  induction secrets with
  | nil =>
    intro i env _ _ _ _ _
    exact ⟨[], [], rfl, rfl, fun j hj => absurd hj (by simp),
      fun j hj => absurd hj (by simp), by simp⟩
  | cons sec rest ih =>
    intro i env hv hwl hmg haw hsub
    have hmem : sec ∈ env.vocab := by
      rw [hv]
      exact hsub sec (by simp)
    have hmem0 : sec ∈ env0.vocab := hv ▸ hmem
    have hseclen : sec.length = env0.wordLength := hvoc sec hmem0
    have hreset : envReset env sec =
        some { env with secret := some sec, history := [], solved := false } := by
      unfold envReset
      rw [if_pos hmem]
    have hst0eq : ({ env with secret := some sec, history := [], solved := false} : EnvState)
        = { env0 with secret := some sec, history := [], solved := false } := by
      obtain ⟨a1, a2, a3, a4, a5, a6, a7⟩ := env
      obtain ⟨b1, b2, b3, b4, b5, b6, b7⟩ := env0
      simp_all
    cases ht : t i with
    | some k =>
      obtain ⟨stPart, hplay, hpv, hpwl, hpmg, hpaw, hpsec⟩ :=
        playLoop_ok g env0 hg hallow k
          { env with secret := some sec, history := [], solved := false }
          hv hwl hmg haw ⟨sec, rfl, hseclen⟩
      obtain ⟨results', calls', hrun, hlen', htime', hnorm', hcalls'⟩ :=
        ih (i + 1) stPart hpv hpwl hpmg hpaw (fun x hx => hsub x (by simp [hx]))
      refine ⟨GameResultM.mk name sec (env.maxGuesses + 1) false true :: results', calls',
        ?_, by simp [hlen'], ?_, ?_, ?_⟩
      · simp only [runWorkerAux, hreset, ht, hplay, hrun]
      · intro j hj hts
        cases j with
        | zero =>
          simp [List.getD_cons_zero, hmg]
        | succ j' =>
          rw [List.getD_cons_succ, List.getD_cons_succ]
          have harith : i + (j' + 1) = i + 1 + j' := by omega
          rw [harith] at hts
          exact htime' j' (by simpa using hj) hts
      · intro j hj htn
        cases j with
        | zero =>
          rw [Nat.add_zero, ht] at htn
          exact absurd htn (by simp)
        | succ j' =>
          rw [List.getD_cons_succ, List.getD_cons_succ]
          have harith : i + (j' + 1) = i + 1 + j' := by omega
          rw [harith] at htn
          exact hnorm' j' (by simpa using hj) htn
      · rw [List.length_cons, List.range_succ_eq_map, List.filterMap_cons]
        have hF0 : (match t (i + 0) with
            | some _ => none
            | none => some (((sec :: rest).getD 0 []),
                (((GameResultM.mk name sec (env.maxGuesses + 1) false true) :: results').getD 0
                  (GameResultM.mk "" [] 0 false false)).solved,
                (((GameResultM.mk name sec (env.maxGuesses + 1) false true) :: results').getD 0
                  (GameResultM.mk "" [] 0 false false)).numGuesses) :
            Option EndCall) = none := by
          rw [Nat.add_zero, ht]
        rw [hF0, List.filterMap_map, hcalls']
        apply List.filterMap_congr
        intro j _
        have harith : i + Nat.succ j = i + 1 + j := by omega
        simp only [Function.comp_apply, harith, List.getD_cons_succ]
    | none =>
      obtain ⟨stFin, hplay, hfv, hfwl, hfmg, hfaw, hfsec⟩ :=
        playLoop_ok g env0 hg hallow
          (({ env with secret := some sec, history := [], solved := false} : EnvState).maxGuesses
            + 1)
          { env with secret := some sec, history := [], solved := false }
          hv hwl hmg haw ⟨sec, rfl, hseclen⟩
      obtain ⟨results', calls', hrun, hlen', htime', hnorm', hcalls'⟩ :=
        ih (i + 1) stFin hfv hfwl hfmg hfaw (fun x hx => hsub x (by simp [hx]))
      have hsingle : singleGame name g env0 sec =
          some (GameResultM.mk name sec stFin.history.length stFin.solved false) := by
        have hreset0 : envReset env0 sec =
            some { env0 with secret := some sec, history := [], solved := false } := by
          unfold envReset
          rw [if_pos hmem0]
        have hplay0 : playLoop g
            ({ env0 with secret := some sec, history := [], solved := false})
            (({ env0 with secret := some sec, history := [], solved := false}
              : EnvState).maxGuesses + 1) = some stFin := by
          rw [← hst0eq]
          exact hplay
        simp only [singleGame, hreset0, hplay0]
      refine ⟨GameResultM.mk name sec stFin.history.length stFin.solved false :: results',
        (sec, stFin.solved, stFin.history.length) :: calls',
        ?_, by simp [hlen'], ?_, ?_, ?_⟩
      · simp only [runWorkerAux, hreset, ht, hplay, hrun]
      · intro j hj hts
        cases j with
        | zero =>
          rw [Nat.add_zero, ht] at hts
          exact absurd hts (by simp)
        | succ j' =>
          rw [List.getD_cons_succ, List.getD_cons_succ]
          have harith : i + (j' + 1) = i + 1 + j' := by omega
          rw [harith] at hts
          exact htime' j' (by simpa using hj) hts
      · intro j hj htn
        cases j with
        | zero =>
          simp only [List.getD_cons_zero, List.getD_cons_succ]
          exact hsingle.symm
        | succ j' =>
          rw [List.getD_cons_succ, List.getD_cons_succ]
          have harith : i + (j' + 1) = i + 1 + j' := by omega
          rw [harith] at htn
          exact hnorm' j' (by simpa using hj) htn
      · rw [List.length_cons, List.range_succ_eq_map, List.filterMap_cons]
        have hF0 : (match t (i + 0) with
            | some _ => none
            | none => some (((sec :: rest).getD 0 []),
                (((GameResultM.mk name sec stFin.history.length stFin.solved false) :: results').getD 0
                  (GameResultM.mk "" [] 0 false false)).solved,
                (((GameResultM.mk name sec stFin.history.length stFin.solved false) :: results').getD 0
                  (GameResultM.mk "" [] 0 false false)).numGuesses) :
            Option EndCall) = some (sec, stFin.solved, stFin.history.length) := by
          rw [Nat.add_zero, ht]
          rfl
        rw [hF0, List.filterMap_map, hcalls']
        congr 1
        apply List.filterMap_congr
        intro j _
        have harith : i + Nat.succ j = i + 1 + j := by omega
        simp only [Function.comp_apply, harith, List.getD_cons_succ]

/-- C6: in the tournament worker, a game whose turn loop is cut off by
the per-game deadline is recorded as unsolved with
`num_guesses = max_guesses + 1` and `timed_out = true`, its `end_game`
callback is skipped, and every remaining secret of the round is run and
scored exactly as it would be in isolation; non-timed-out games are
scored normally with `end_game` called once each, in order. -/
theorem worker_timeout_handling (name : String) (g : List (Word × Pattern) → Word)
    (t : ℕ → Option ℕ) (env0 : EnvState) (secrets : List Word)
    (hsub : ∀ sec ∈ secrets, sec ∈ env0.vocab)
    (hvoc : ∀ w ∈ env0.vocab, w.length = env0.wordLength)
    (hg : ∀ h, (g h).length = env0.wordLength)
    (hallow : env0.allowNonWords = true) :
    ∃ results calls, runWorker name g t env0 secrets = some (results, calls) ∧
      results.length = secrets.length ∧
      (∀ j, j < secrets.length → (t j).isSome = true →
        results.getD j (GameResultM.mk "" [] 0 false false) =
          GameResultM.mk name (secrets.getD j []) (env0.maxGuesses + 1) false true) ∧
      (∀ j, j < secrets.length → t j = none →
        some (results.getD j (GameResultM.mk "" [] 0 false false)) =
          singleGame name g env0 (secrets.getD j [])) ∧
      calls = (List.range secrets.length).filterMap (fun j =>
        match t j with
        | some _ => none
        | none => some (secrets.getD j [],
            (results.getD j (GameResultM.mk "" [] 0 false false)).solved,
            (results.getD j (GameResultM.mk "" [] 0 false false)).numGuesses)) := by
  obtain ⟨results, calls, hrun, hlen, htime, hnorm, hcalls⟩ :=
    runWorkerAux_spec name g t env0 hvoc hg hallow secrets 0 env0 rfl rfl rfl rfl hsub
  refine ⟨results, calls, hrun, hlen, ?_, ?_, ?_⟩
  · intro j hj hts
    exact htime j hj (by simpa using hts)
  · intro j hj htn
    exact hnorm j hj (by simpa using htn)
  · rw [hcalls]
    apply List.filterMap_congr
    intro j _
    simp

/-- Witness for C6 on a two-secret round whose first game times out. -/
theorem worker_timeout_handling_witness :
    ((∀ sec ∈ ([[0], [1]] : List Word),
        sec ∈ (EnvState.mk [[0], [1]] 1 3 true none [] false).vocab) ∧
      (∀ w ∈ (EnvState.mk [[0], [1]] 1 3 true none [] false).vocab,
        w.length = (EnvState.mk [[0], [1]] 1 3 true none [] false).wordLength)) ∧
    (∃ results calls,
      runWorker "s" (fun _ => [0]) (fun i => if i = 0 then some 0 else none)
          (EnvState.mk [[0], [1]] 1 3 true none [] false) [[0], [1]] =
        some (results, calls) ∧
      results.length = ([[0], [1]] : List Word).length ∧
      (∀ j, j < ([[0], [1]] : List Word).length →
        ((fun i => if i = 0 then some 0 else none) j).isSome = true →
        results.getD j (GameResultM.mk "" [] 0 false false) =
          GameResultM.mk "s" (([[0], [1]] : List Word).getD j [])
            ((EnvState.mk [[0], [1]] 1 3 true none [] false).maxGuesses + 1) false true) ∧
      (∀ j, j < ([[0], [1]] : List Word).length →
        (fun i => if i = 0 then some 0 else none) j = none →
        some (results.getD j (GameResultM.mk "" [] 0 false false)) =
          singleGame "s" (fun _ => [0]) (EnvState.mk [[0], [1]] 1 3 true none [] false)
            (([[0], [1]] : List Word).getD j [])) ∧
      calls = (List.range ([[0], [1]] : List Word).length).filterMap (fun j =>
        match (fun i => if i = 0 then some 0 else none) j with
        | some _ => none
        | none => some (([[0], [1]] : List Word).getD j [],
            (results.getD j (GameResultM.mk "" [] 0 false false)).solved,
            (results.getD j (GameResultM.mk "" [] 0 false false)).numGuesses))) :=
  ⟨⟨by decide, by decide⟩,
   worker_timeout_handling "s" (fun _ => [0]) (fun i => if i = 0 then some 0 else none)
     (EnvState.mk [[0], [1]] 1 3 true none [] false) [[0], [1]]
     (by decide) (by decide) (fun _ => rfl) rfl⟩

/-! ### C2: the live entropy fallback -/

theorem selectBest_foldl_spec (cands : List Word) (ent : Word → ℝ) :
    ∀ (l : List Word) (b : Word × ℝ), b.2 = ent b.1 →
      (l.foldl (fun b g =>
          if ent g > b.2 ∨ (ent g = b.2 ∧ g ∈ cands ∧ b.1 ∉ cands) then (g, ent g) else b)
        b).2 =
        ent (l.foldl (fun b g =>
          if ent g > b.2 ∨ (ent g = b.2 ∧ g ∈ cands ∧ b.1 ∉ cands) then (g, ent g) else b)
        b).1 ∧
      ((l.foldl (fun b g =>
          if ent g > b.2 ∨ (ent g = b.2 ∧ g ∈ cands ∧ b.1 ∉ cands) then (g, ent g) else b)
        b).1 = b.1 ∨
       (l.foldl (fun b g =>
          if ent g > b.2 ∨ (ent g = b.2 ∧ g ∈ cands ∧ b.1 ∉ cands) then (g, ent g) else b)
        b).1 ∈ l) ∧
      b.2 ≤ (l.foldl (fun b g =>
          if ent g > b.2 ∨ (ent g = b.2 ∧ g ∈ cands ∧ b.1 ∉ cands) then (g, ent g) else b)
        b).2 ∧
      ∀ g ∈ l, ent g ≤ (l.foldl (fun b g =>
          if ent g > b.2 ∨ (ent g = b.2 ∧ g ∈ cands ∧ b.1 ∉ cands) then (g, ent g) else b)
        b).2 := by
  intro l
  induction l with
  | nil =>
    intro b hb
    exact ⟨hb, Or.inl rfl, le_refl _, fun g hg => absurd hg (by simp)⟩
  | cons g t ih =>
    intro b hb
    rw [List.foldl_cons]
    by_cases hcond : ent g > b.2 ∨ (ent g = b.2 ∧ g ∈ cands ∧ b.1 ∉ cands)
    · rw [if_pos hcond]
      obtain ⟨r1, r2, r3, r4⟩ := ih (g, ent g) rfl
      have hble : b.2 ≤ (g, ent g).2 := by
        rcases hcond with h | h
        · exact le_of_lt h
        · exact le_of_eq h.1.symm
      refine ⟨r1, ?_, le_trans hble r3, ?_⟩
      · rcases r2 with h | h
        · exact Or.inr (by simp [h])
        · exact Or.inr (by simp [h])
      · intro x hx
        rcases List.mem_cons.mp hx with h | h
        · rw [h]
          exact r3
        · exact r4 x h
    · rw [if_neg hcond]
      have hgle : ent g ≤ b.2 := by
        by_contra hlt
        exact hcond (Or.inl (lt_of_not_le hlt))
      obtain ⟨r1, r2, r3, r4⟩ := ih b hb
      refine ⟨r1, ?_, r3, ?_⟩
      · rcases r2 with h | h
        · exact Or.inl h
        · exact Or.inr (by simp [h])
      · intro x hx
        rcases List.mem_cons.mp hx with h | h
        · rw [h]
          exact le_trans hgle r3
        · exact r4 x h

theorem selectBest_mem_max (cands : List Word) (ent : Word → ℝ) (g0 : Word) (t : List Word)
    (h0 : -1 < ent g0) :
    selectBest cands (g0 :: t) ent ∈ g0 :: t ∧
      ∀ g ∈ g0 :: t, ent g ≤ ent (selectBest cands (g0 :: t) ent) := by
  unfold selectBest
  rw [List.foldl_cons]
  rw [if_pos (Or.inl (by simpa using h0))]
  obtain ⟨r1, r2, r3, r4⟩ := selectBest_foldl_spec cands ent t (g0, ent g0) rfl
  constructor
  · rcases r2 with h | h
    · simp [h]
    · simp [h]
  · intro g hg
    rw [← r1]
    rcases List.mem_cons.mp hg with h | h
    · rw [h]
      exact r3
    · exact r4 g h

theorem selectBest_all_tied (cands : List Word) (ent : Word → ℝ) (g0 : Word) (t : List Word)
    (h0 : -1 < ent g0) (hm : g0 ∈ cands) (hc : ∀ g ∈ t, ent g = ent g0) :
    selectBest cands (g0 :: t) ent = g0 := by
  unfold selectBest
  rw [List.foldl_cons]
  rw [if_pos (Or.inl (by simpa using h0))]
  have : ∀ (l : List Word), (∀ g ∈ l, ent g = ent g0) →
      (l.foldl (fun b g =>
        if ent g > b.2 ∨ (ent g = b.2 ∧ g ∈ cands ∧ b.1 ∉ cands) then (g, ent g) else b)
        (g0, ent g0)) = (g0, ent g0) := by
    intro l
    induction l with
    | nil => intro _; rfl
    | cons x xs ih =>
      intro hl
      rw [List.foldl_cons]
      rw [if_neg]
      · exact ih (fun g hg => hl g (by simp [hg]))
      · intro hcond
        rcases hcond with h | h
        · rw [hl x (by simp)] at h
          exact lt_irrefl _ h
        · exact h.2.2 hm
  rw [this t hc]

theorem childrenOf_cell_length (evalC : List Word) (g : Word) :
    ∀ pc ∈ childrenOf evalC g, pc.2.length ≤ evalC.length := by
  intro pc hpc
  obtain ⟨k, _, hkeq⟩ := List.mem_map.mp hpc
  rw [← hkeq]
  exact List.length_filter_le _ _

theorem countEntropy_nonneg (evalC : List Word) (g : Word) (hne : evalC ≠ []) :
    0 ≤ countEntropy evalC g := by
  unfold countEntropy
  apply List.sum_nonneg
  intro x hx
  obtain ⟨pc, hpc, hxeq⟩ := List.mem_map.mp hx
  rw [← hxeq]
  unfold entTerm
  have hn : 0 < (evalC.length : ℝ) := by
    have := List.length_pos.mpr hne
    exact_mod_cast this
  have hple : (pc.2.length : ℝ) / (evalC.length : ℝ) ≤ 1 := by
    rw [div_le_one hn]
    exact_mod_cast childrenOf_cell_length evalC g pc hpc
  have hpge : 0 ≤ (pc.2.length : ℝ) / (evalC.length : ℝ) := by positivity
  have hlog : Real.logb 2 ((pc.2.length : ℝ) / (evalC.length : ℝ)) ≤ 0 :=
    Real.logb_nonpos (by norm_num) hpge hple
  have : (pc.2.length : ℝ) / (evalC.length : ℝ) *
      Real.logb 2 ((pc.2.length : ℝ) / (evalC.length : ℝ)) ≤ 0 :=
    mul_nonpos_of_nonneg_of_nonpos hpge hlog
  linarith

/-- C2 (amended): on the live fallback path (tree miss, more than two
surviving candidates, candidate count within the pool cap so that no
subsampling occurs), `EntropyStrategy.guess` partitions the evaluation
set by feedback pattern, weights each cell by its candidate *count*
over the evaluation-set size — the probability model is not consulted —
computes `H = -Σ p log2 p` over those fractions, and returns a
surviving candidate of maximal such count-entropy (the
candidate-preference tie-break never alters the choice because the
whole guess pool consists of surviving candidates). -/
theorem entropy_live_spec (tree : List (List Pattern × Word)) (vocab : List Word)
    (history : List (Word × Pattern)) (sp se : List Word → List Word)
    (hmiss : lookupA tree (history.map (fun gp => gp.2)) = none)
    (hbig : 2 < (liveCandidates vocab history).length)
    (hcap : (liveCandidates vocab history).length ≤ 200) :
    entropyGuessLive tree vocab history sp se ∈ liveCandidates vocab history ∧
      ∀ g ∈ liveCandidates vocab history,
        countEntropy (liveCandidates vocab history) g ≤
          countEntropy (liveCandidates vocab history)
            (entropyGuessLive tree vocab history sp se) := by
  have hne : liveCandidates vocab history ≠ [] := by
    intro hcon
    rw [hcon] at hbig
    simp at hbig
  have hred : entropyGuessLive tree vocab history sp se =
      selectBest (liveCandidates vocab history) (liveCandidates vocab history)
        (countEntropy (liveCandidates vocab history)) := by
    simp only [entropyGuessLive, hmiss]
    rw [if_neg hne, if_neg (by omega), if_pos hcap, if_pos (by omega)]
  rw [hred]
  obtain ⟨g0, t, hgt⟩ : ∃ g0 t, liveCandidates vocab history = g0 :: t := by
    cases hl : liveCandidates vocab history with
    | nil => exact absurd hl hne
    | cons a l => exact ⟨a, l, rfl⟩
  have h0 : -1 < countEntropy (liveCandidates vocab history) g0 := by
    have := countEntropy_nonneg (liveCandidates vocab history) g0 hne
    linarith
  rw [hgt]
  rw [hgt] at h0
  exact selectBest_mem_max (g0 :: t) (countEntropy (g0 :: t)) g0 t h0

/-- Witness for C2's amended theorem on the rotation vocabulary with an
empty history. -/
theorem entropy_live_spec_witness :
    (lookupA ([] : List (List Pattern × Word)) (([] : List (Word × Pattern)).map
        (fun gp => gp.2)) = none ∧
      2 < (liveCandidates vocabRot []).length ∧
      (liveCandidates vocabRot []).length ≤ 200) ∧
    (entropyGuessLive [] vocabRot [] id id ∈ liveCandidates vocabRot [] ∧
      ∀ g ∈ liveCandidates vocabRot [],
        countEntropy (liveCandidates vocabRot []) g ≤
          countEntropy (liveCandidates vocabRot [])
            (entropyGuessLive [] vocabRot [] id id)) :=
  ⟨⟨rfl, by decide, by decide⟩,
   entropy_live_spec [] vocabRot [] id id rfl (by decide) (by decide)⟩

theorem childrenOf_rot_abc :
    childrenOf vocabRot wABC =
      [(some [2, 2, 2], [wABC]), (some [1, 1, 1], [wBCA, wCAB])] := by decide

theorem childrenOf_rot_bca :
    childrenOf vocabRot wBCA =
      [(some [1, 1, 1], [wABC, wCAB]), (some [2, 2, 2], [wBCA])] := by decide

theorem childrenOf_rot_cab :
    childrenOf vocabRot wCAB =
      [(some [1, 1, 1], [wABC, wBCA]), (some [2, 2, 2], [wCAB])] := by decide

theorem countEntropy_rot_abc :
    countEntropy vocabRot wABC = entTerm (1 / 3) + entTerm (2 / 3) := by
  unfold countEntropy
  rw [childrenOf_rot_abc]
  simp only [List.map_cons, List.map_nil, List.sum_cons, List.sum_nil, add_zero]
  norm_num [vocabRot, wABC, wBCA, wCAB]

theorem countEntropy_rot_bca :
    countEntropy vocabRot wBCA = entTerm (2 / 3) + entTerm (1 / 3) := by
  unfold countEntropy
  rw [childrenOf_rot_bca]
  simp only [List.map_cons, List.map_nil, List.sum_cons, List.sum_nil, add_zero]
  norm_num [vocabRot, wABC, wBCA, wCAB]

theorem countEntropy_rot_cab :
    countEntropy vocabRot wCAB = entTerm (2 / 3) + entTerm (1 / 3) := by
  unfold countEntropy
  rw [childrenOf_rot_cab]
  simp only [List.map_cons, List.map_nil, List.sum_cons, List.sum_nil, add_zero]
  norm_num [vocabRot, wABC, wBCA, wCAB]

theorem wtsRot_eval :
    wtsRot wABC = 0 ∧ wtsRot wBCA = 1 / 2 ∧ wtsRot wCAB = 1 / 2 := by
  refine ⟨?_, ?_, ?_⟩
  · simp [wtsRot]
  · rw [wtsRot, if_neg (by decide), if_pos rfl]
  · rw [wtsRot, if_neg (by decide), if_neg (by decide), if_pos rfl]

theorem specEntropy_rot_abc : specEntropy wtsRot vocabRot wABC = 0 := by
  obtain ⟨h1, h2, h3⟩ := wtsRot_eval
  unfold specEntropy
  rw [childrenOf_rot_abc]
  simp only [List.map_cons, List.map_nil, List.sum_cons, List.sum_nil, add_zero, h1, h2, h3]
  norm_num
  unfold entTerm
  simp

theorem specEntropy_rot_bca : specEntropy wtsRot vocabRot wBCA = 1 := by
  obtain ⟨h1, h2, h3⟩ := wtsRot_eval
  have hhalf : entTerm (1 / 2) = 1 / 2 := by
    unfold entTerm
    have : ((1 : ℝ) / 2) = (2 : ℝ)⁻¹ := by norm_num
    rw [this, Real.logb_inv, Real.logb_self_eq_one (by norm_num)]
    norm_num
  unfold specEntropy
  rw [childrenOf_rot_bca]
  simp only [List.map_cons, List.map_nil, List.sum_cons, List.sum_nil, add_zero, h1, h2, h3]
  norm_num
  rw [hhalf]
  norm_num

/-- Counterexample to C2 as stated: on the rotation vocabulary with the
probability masses of `wtsRot`, the live fallback returns "abc" (all
count-based entropies are tied and the first pool guess is kept), yet
"bca" — also in the pool — has strictly larger probability-weighted
Shannon entropy, so the returned guess does not maximize the
spec's probability-mass-weighted H. -/
theorem entropy_live_counterexample :
    entropyGuessLive [] vocabRot [] id id = wABC ∧
    wBCA ∈ vocabRot ∧
    specEntropy wtsRot vocabRot wABC < specEntropy wtsRot vocabRot wBCA := by
  refine ⟨?_, by decide, ?_⟩
  · have hred : entropyGuessLive [] vocabRot [] id id =
        selectBest vocabRot vocabRot (countEntropy vocabRot) := by
      simp only [entropyGuessLive, lookupA]
      rw [if_neg (by decide), if_neg (by decide), if_pos (by decide), if_pos (by decide)]
      rfl
    rw [hred]
    have h0 : -1 < countEntropy vocabRot wABC := by
      have := countEntropy_nonneg vocabRot wABC (by decide)
      linarith
    have hshape : vocabRot = wABC :: [wBCA, wCAB] := by decide
    rw [hshape]
    apply selectBest_all_tied
    · rw [← hshape]
      exact h0
    · decide
    · intro g hg
      rcases List.mem_cons.mp hg with h | h
      · rw [h, ← hshape, countEntropy_rot_bca, countEntropy_rot_abc]
        ring
      · rcases List.mem_cons.mp h with h' | h'
        · rw [h', ← hshape, countEntropy_rot_cab, countEntropy_rot_abc]
          ring
        · exact absurd h' (by simp)
  · rw [specEntropy_rot_abc, specEntropy_rot_bca]
    norm_num

/-! ### C5: chunked root evaluation versus a single chunk -/

theorem rootReduceStep_assoc (a b c : SelSt) :
    rootReduceStep (rootReduceStep a (some b)) (some c) =
      rootReduceStep a (some (rootReduceStep b (some c))) := by
  unfold rootReduceStep
  dsimp only
  by_cases hbc : c.2.1 > b.2.1 ∨ (c.2.1 = b.2.1 ∧ c.2.2 ∧ ¬b.2.2)
  · by_cases hab : b.2.1 > a.2.1 ∨ (b.2.1 = a.2.1 ∧ b.2.2 ∧ ¬a.2.2)
    · have hac : c.2.1 > a.2.1 ∨ (c.2.1 = a.2.1 ∧ c.2.2 ∧ ¬a.2.2) := by
        rcases hbc with h | ⟨he, hcc, hnb⟩
        · rcases hab with h' | ⟨he', _, _⟩
          · exact Or.inl (lt_trans h' h)
          · exact Or.inl (he' ▸ h)
        · rcases hab with h' | ⟨_, hb2, _⟩
          · exact Or.inl (he ▸ h')
          · exact absurd hb2 hnb
      rw [if_pos hab, if_pos hbc, if_pos hac]
    · rw [if_neg hab, if_pos hbc]
  · by_cases hab : b.2.1 > a.2.1 ∨ (b.2.1 = a.2.1 ∧ b.2.2 ∧ ¬a.2.2)
    · rw [if_pos hab, if_neg hbc, if_pos hab]
    · have h1 : c.2.1 ≤ b.2.1 := by
        by_contra hh
        exact hbc (Or.inl (lt_of_not_le hh))
      have h2 : b.2.1 ≤ a.2.1 := by
        by_contra hh
        exact hab (Or.inl (lt_of_not_le hh))
      have hac : ¬(c.2.1 > a.2.1 ∨ (c.2.1 = a.2.1 ∧ c.2.2 ∧ ¬a.2.2)) := by
        intro hcon
        rcases hcon with h | ⟨he, hcc, hnac⟩
        · linarith
        · have hcb : c.2.1 = b.2.1 := le_antisymm h1 (by rw [he]; exact h2)
          have hba : b.2.1 = a.2.1 := by
            rw [← hcb, he]
          have hbcc : b.2.2 = true := by
            by_contra hbf
            exact hbc (Or.inr ⟨hcb, hcc, by simpa using hbf⟩)
          exact hab (Or.inr ⟨hba, by simp [hbcc], hnac⟩)
      rw [if_neg hab, if_neg hbc, if_neg hab, if_neg hac]

theorem chunkStep_some (wts : Word → ℝ) (cands : List Word) (s : SelSt) (g : Word) :
    chunkStep wts cands (some s) g =
      some (rootReduceStep s (some (g, wEnt wts cands g, decide (g ∈ cands)))) := by
  unfold chunkStep rootReduceStep
  dsimp only
  split
  · rfl
  · rfl

theorem evalChunk_from_some (wts : Word → ℝ) (cands : List Word) :
    ∀ (t : List Word) (x : SelSt),
      t.foldl (chunkStep wts cands) (some x) =
        some (t.foldl (fun b g =>
          rootReduceStep b (some (g, wEnt wts cands g, decide (g ∈ cands)))) x) := by
  intro t
  induction t with
  | nil => intro x; rfl
  | cons g t ih =>
    intro x
    rw [List.foldl_cons, List.foldl_cons, chunkStep_some]
    exact ih _

theorem evalChunk_cons (wts : Word → ℝ) (cands : List Word) (g : Word) (t : List Word) :
    evalChunk (g :: t) cands wts =
      some (t.foldl (fun b x =>
        rootReduceStep b (some (x, wEnt wts cands x, decide (x ∈ cands))))
        (g, wEnt wts cands g, decide (g ∈ cands))) := by
  unfold evalChunk
  rw [List.foldl_cons]
  have h0 : chunkStep wts cands none g =
      some (g, wEnt wts cands g, decide (g ∈ cands)) := rfl
  rw [h0]
  exact evalChunk_from_some wts cands t _

theorem foldl_sel_reduce (wts : Word → ℝ) (cands : List Word) :
    ∀ (t : List Word) (s x : SelSt),
      t.foldl (fun b g =>
          rootReduceStep b (some (g, wEnt wts cands g, decide (g ∈ cands))))
        (rootReduceStep s (some x)) =
        rootReduceStep s (some (t.foldl (fun b g =>
          rootReduceStep b (some (g, wEnt wts cands g, decide (g ∈ cands)))) x)) := by
  intro t
  induction t with
  | nil => intro s x; rfl
  | cons g t ih =>
    intro s x
    rw [List.foldl_cons, List.foldl_cons, rootReduceStep_assoc]
    exact ih s _

theorem chunk_fold_eq_flatten_fold (wts : Word → ℝ) (cands : List Word) :
    ∀ (chunks : List (List Word)) (s : SelSt),
      (chunks.map (fun ch => evalChunk ch cands wts)).foldl rootReduceStep s =
        chunks.flatten.foldl (fun b g =>
          rootReduceStep b (some (g, wEnt wts cands g, decide (g ∈ cands)))) s := by
  intro chunks
  induction chunks with
  | nil => intro s; rfl
  | cons ch rest ih =>
    intro s
    rw [List.map_cons, List.foldl_cons, List.flatten_cons, List.foldl_append]
    cases ch with
    | nil =>
      have h0 : evalChunk ([] : List Word) cands wts = none := rfl
      rw [h0]
      have h1 : rootReduceStep s none = s := rfl
      rw [h1, List.foldl_nil]
      exact ih s
    | cons g t =>
      rw [evalChunk_cons, List.foldl_cons, ← foldl_sel_reduce]
      have h2 : rootReduceStep s
          (some (g, wEnt wts cands g, decide (g ∈ cands))) =
          (fun b x => rootReduceStep b
            (some (x, wEnt wts cands x, decide (x ∈ cands)))) s g := rfl
      rw [h2]
      exact ih _

/-- C5 (amended): splitting the root guess pool into contiguous chunks,
letting each chunk compute its best `(guess, entropy, is_candidate)`
triple by `_eval_chunk`'s rule, and reducing the chunk winners *in
chunk (submission) order* yields exactly the state obtained by
evaluating the whole pool as one chunk — for every candidate set,
weight map and chunking.  (With winners reduced in an arbitrary
completion order only the entropy component is guaranteed; see the
counterexample.) -/
theorem chunked_root_matches_single (cands : List Word) (wts : Word → ℝ)
    (chunks : List (List Word)) :
    chunkedRoot chunks cands wts =
      reduceWinners cands [evalChunk chunks.flatten cands wts] := by
  unfold chunkedRoot reduceWinners
  rw [chunk_fold_eq_flatten_fold]
  rw [List.foldl_cons, List.foldl_nil]
  cases hfl : chunks.flatten with
  | nil => rfl
  | cons g t =>
    rw [evalChunk_cons, List.foldl_cons, ← foldl_sel_reduce]

theorem wEnt_rot_bca : wEnt wtsRot vocabRot wBCA = 1 := by
  obtain ⟨h1, h2, h3⟩ := wtsRot_eval
  unfold wEnt
  rw [childrenOf_rot_bca]
  simp only [List.map_cons, List.map_nil, List.sum_cons, List.sum_nil, add_zero, h1, h2, h3]
  norm_num
  unfold entTermPos
  rw [if_pos (by norm_num : (1 : ℝ) / 2 > 0)]
  have h12 : ((1 : ℝ) / 2) = (2 : ℝ)⁻¹ := by norm_num
  rw [h12, Real.logb_inv, Real.logb_self_eq_one (by norm_num)]
  norm_num

theorem wEnt_rot_cab : wEnt wtsRot vocabRot wCAB = 1 := by
  obtain ⟨h1, h2, h3⟩ := wtsRot_eval
  unfold wEnt
  rw [childrenOf_rot_cab]
  simp only [List.map_cons, List.map_nil, List.sum_cons, List.sum_nil, add_zero, h1, h2, h3]
  norm_num
  unfold entTermPos
  rw [if_pos (by norm_num : (1 : ℝ) / 2 > 0)]
  have h12 : ((1 : ℝ) / 2) = (2 : ℝ)⁻¹ := by norm_num
  rw [h12, Real.logb_inv, Real.logb_self_eq_one (by norm_num)]
  norm_num

/-- Counterexample to C5 as stated: the chunk winners arrive in
`as_completed` order, which is not fixed.  Splitting the pool
["bca", "cab"] into the chunks [["bca"], ["cab"]], whose winners have
exactly equal weighted entropy and are both candidates, and reducing
them in *reversed* arrival order yields the guess "cab", while
evaluating the whole pool as one chunk yields "bca" — so the reduced
(guess, entropy) pair is not always the single-chunk one. -/
theorem chunked_root_order_counterexample :
    (reduceWinners vocabRot
        [evalChunk [wCAB] vocabRot wtsRot, evalChunk [wBCA] vocabRot wtsRot]).1 = wCAB ∧
    (reduceWinners vocabRot
        [evalChunk ([[wBCA], [wCAB]] : List (List Word)).flatten vocabRot wtsRot]).1 = wBCA ∧
    wCAB ≠ wBCA := by
  have hWB : wEnt wtsRot vocabRot wBCA = 1 := wEnt_rot_bca
  have hWC : wEnt wtsRot vocabRot wCAB = 1 := wEnt_rot_cab
  have hmB : (decide (wBCA ∈ vocabRot)) = true := by decide
  have hmC : (decide (wCAB ∈ vocabRot)) = true := by decide
  have e1 : evalChunk [wCAB] vocabRot wtsRot = some (wCAB, 1, true) := by
    rw [evalChunk_cons]
    rw [List.foldl_nil, hWC, hmC]
  have e2 : evalChunk [wBCA] vocabRot wtsRot = some (wBCA, 1, true) := by
    rw [evalChunk_cons]
    rw [List.foldl_nil, hWB, hmB]
  have snotake : rootReduceStep (wBCA, (1 : ℝ), true) (some (wCAB, 1, true)) =
      (wBCA, 1, true) := by
    unfold rootReduceStep
    dsimp only
    rw [if_neg]
    intro hcon
    rcases hcon with h | h
    · exact absurd h (by norm_num)
    · simp at h
  have e3 : evalChunk ([[wBCA], [wCAB]] : List (List Word)).flatten vocabRot wtsRot =
      some (wBCA, 1, true) := by
    have hfl : ([[wBCA], [wCAB]] : List (List Word)).flatten = [wBCA, wCAB] := by decide
    rw [hfl, evalChunk_cons, List.foldl_cons, List.foldl_nil, hWB, hmB]
    have : rootReduceStep (wBCA, (1 : ℝ), true)
        (some (wCAB, wEnt wtsRot vocabRot wCAB, decide (wCAB ∈ vocabRot))) =
        (wBCA, 1, true) := by
      rw [hWC, hmC]
      exact snotake
    rw [this]
  have hinit : (vocabRot.headD [], (-1 : ℝ), true) = (wABC, (-1 : ℝ), true) := rfl
  have stake : ∀ w : Word, rootReduceStep (wABC, (-1 : ℝ), true) (some (w, 1, true)) =
      (w, 1, true) := by
    intro w
    unfold rootReduceStep
    dsimp only
    rw [if_pos (Or.inl (by norm_num))]
  have stake2 : rootReduceStep (wCAB, (1 : ℝ), true) (some (wBCA, 1, true)) =
      (wCAB, 1, true) := by
    unfold rootReduceStep
    dsimp only
    rw [if_neg]
    intro hcon
    rcases hcon with h | h
    · exact absurd h (by norm_num)
    · simp at h
  refine ⟨?_, ?_, by decide⟩
  · rw [e1, e2]
    unfold reduceWinners
    rw [List.foldl_cons, List.foldl_cons, List.foldl_nil, hinit, stake wCAB, stake2]
  · rw [e3]
    unfold reduceWinners
    rw [List.foldl_cons, List.foldl_nil, hinit, stake wBCA]

/-! ### C4: checkpointed tree building is resumable -/

theorem visitAux_not_in_ckpt (ckpt : Ckpt) (mint : ℕ) :
    ∀ (d : ℕ) (p : TPath) (c : List Word) (pc : TPath × List Word),
      pc ∈ visitAux ckpt mint d p c → lookupA ckpt pc.1 = none := by
  intro d
  induction d with
  | zero =>
    intro p c pc hpc
    rw [visitAux] at hpc
    by_cases hle : c.length ≤ 1
    · rw [if_pos hle] at hpc
      exact absurd hpc (by simp)
    · rw [if_neg hle] at hpc
      cases hlook : lookupA ckpt p with
      | none =>
        rw [hlook] at hpc
        have hpceq : pc = (p, c) := by simpa using hpc
        rw [hpceq]
        exact hlook
      | some g =>
        rw [hlook] at hpc
        exact absurd hpc (by simp)
  | succ d' ih =>
    intro p c pc hpc
    rw [visitAux] at hpc
    by_cases hle : c.length ≤ 1
    · rw [if_pos hle] at hpc
      exact absurd hpc (by simp)
    · rw [if_neg hle] at hpc
      cases hlook : lookupA ckpt p with
      | none =>
        rw [hlook] at hpc
        have hpceq : pc = (p, c) := by simpa using hpc
        rw [hpceq]
        exact hlook
      | some g =>
        rw [hlook] at hpc
        simp only at hpc
        obtain ⟨l, hl, hpcl⟩ := List.mem_flatten.mp hpc
        obtain ⟨qc, hqc, hfeq⟩ := List.mem_map.mp hl
        by_cases hq : mint < qc.2.length
        · rw [if_pos hq] at hfeq
          rw [← hfeq] at hpcl
          exact ih (p ++ [qc.1]) qc.2 pc hpcl
        · rw [if_neg hq] at hfeq
          rw [← hfeq] at hpcl
          exact absurd hpcl (by simp)

theorem reaches_visit_sub (ckpt : Ckpt) (vocab : List Word) (maxd mint : ℕ) :
    ∀ (p : TPath) (c : List Word), Reaches ckpt vocab maxd mint p c →
      ∀ pc, pc ∈ visitAux ckpt mint (maxd - p.length) p c →
        pc ∈ buildPending ckpt vocab maxd mint := by
  intro p c hre
  induction hre with
  | root =>
    intro pc hpc
    exact hpc
  | child p c g pat cc _ hbig hlook hdepth hmem hthr ih =>
    intro pc hpc
    apply ih
    obtain ⟨d', hd'⟩ : ∃ d', maxd - p.length = d' + 1 :=
      ⟨maxd - p.length - 1, by omega⟩
    have hd2 : maxd - (p ++ [pat]).length = d' := by
      rw [List.length_append]
      simp
      omega
    rw [visitAux, if_neg (by omega : ¬c.length ≤ 1), hlook, hd']
    simp only
    apply List.mem_flatten.mpr
    refine ⟨visitAux ckpt mint d' (p ++ [pat]) cc, ?_, ?_⟩
    · exact List.mem_map.mpr ⟨(pat, cc), hmem, by rw [if_pos hthr]⟩
    · rw [hd2] at hpc
      exact hpc

/-- C4: resuming the tree build from the checkpoint written after the
first completed depth continues exactly as the uninterrupted build (so
for any sufficient fuel both runs produce the identical final
path-to-guess map: once the pending set is empty the loop is the
identity); no node present in a checkpoint ever reappears in the
pending set (no recomputation); and every node the `build_pending` walk
can reach that is absent from the checkpoint and has more than one
candidate is in the pending set (no node is skipped). -/
theorem tree_build_resumable (vocab : List Word) (wts : Word → ℝ) (maxd mint fuel : ℕ)
    (hroot : buildPending [] vocab maxd mint ≠ []) :
    buildLoop vocab wts maxd mint (fuel + 1) [] =
      buildLoop vocab wts maxd mint fuel (stepLevel vocab wts maxd mint []) ∧
    (∀ (n : ℕ) (ckpt : Ckpt), buildPending ckpt vocab maxd mint = [] →
      buildLoop vocab wts maxd mint n ckpt = ckpt) ∧
    (∀ (ckpt : Ckpt) (pc : TPath × List Word),
      pc ∈ buildPending ckpt vocab maxd mint → lookupA ckpt pc.1 = none) ∧
    (∀ (ckpt : Ckpt) (p : TPath) (c : List Word),
      Reaches ckpt vocab maxd mint p c → 1 < c.length → lookupA ckpt p = none →
      (p, c) ∈ buildPending ckpt vocab maxd mint) := by
  refine ⟨?_, ?_, ?_, ?_⟩
  · rw [buildLoop, if_neg hroot]
  · intro n
    induction n with
    | zero => intro ckpt _; rfl
    | succ m ih =>
      intro ckpt hempty
      rw [buildLoop, if_pos hempty]
  · intro ckpt pc hpc
    exact visitAux_not_in_ckpt ckpt mint maxd [] vocab pc hpc
  · intro ckpt p c hre hbig hlook
    apply reaches_visit_sub ckpt vocab maxd mint p c hre
    rw [visitAux, if_neg (by omega : ¬c.length ≤ 1), hlook]
    simp

/-- Witness for C4 on a two-word vocabulary. -/
theorem tree_build_resumable_witness :
    buildPending [] [[0], [1]] 1 0 ≠ [] ∧
    (buildLoop [[0], [1]] (fun _ => 0) 1 0 2 [] =
        buildLoop [[0], [1]] (fun _ => 0) 1 0 1
          (stepLevel [[0], [1]] (fun _ => 0) 1 0 []) ∧
      (∀ (n : ℕ) (ckpt : Ckpt), buildPending ckpt [[0], [1]] 1 0 = [] →
        buildLoop [[0], [1]] (fun _ => 0) 1 0 n ckpt = ckpt) ∧
      (∀ (ckpt : Ckpt) (pc : TPath × List Word),
        pc ∈ buildPending ckpt [[0], [1]] 1 0 → lookupA ckpt pc.1 = none) ∧
      (∀ (ckpt : Ckpt) (p : TPath) (c : List Word),
        Reaches ckpt [[0], [1]] 1 0 p c → 1 < c.length → lookupA ckpt p = none →
        (p, c) ∈ buildPending ckpt [[0], [1]] 1 0)) :=
  ⟨by decide, tree_build_resumable [[0], [1]] (fun _ => 0) 1 0 1 (by decide)⟩

/-! ### C3: per-round leaderboard points -/

theorem drop_length_takeWhile {α : Type} (p : α → Bool) :
    ∀ l : List α, l.drop (l.takeWhile p).length = l.dropWhile p := by
  intro l
  induction l with
  | nil => rfl
  | cons x xs ih =>
    by_cases hx : p x
    · rw [List.takeWhile_cons, if_pos hx, List.dropWhile_cons, if_pos hx,
        List.length_cons, List.drop_succ_cons]
      exact ih
    · rw [List.takeWhile_cons, if_neg hx, List.dropWhile_cons, if_neg hx]
      rfl

theorem dropWhile_head_not {α : Type} (p : α → Bool) :
    ∀ (l : List α) (y : α) (ys : List α), l.dropWhile p = y :: ys → p y = false := by
  intro l
  induction l with
  | nil => intro y ys h; exact absurd h (by simp)
  | cons x xs ih =>
    intro y ys h
    by_cases hx : p x
    · rw [List.dropWhile_cons, if_pos hx] at h
      exact ih y ys h
    · rw [List.dropWhile_cons, if_neg hx] at h
      obtain ⟨rfl, _⟩ := List.cons.injEq .. ▸ h
      injection h with h1 _
      rw [← h1] at hx
      simpa using hx

theorem list_range_sum_eq (f : ℕ → ℚ) :
    ∀ m, ((List.range m).map f).sum = ∑ k ∈ Finset.range m, f k := by
  intro m
  induction m with
  | zero => simp
  | succ k ih =>
    rw [List.range_succ, List.map_append, List.sum_append, Finset.sum_range_succ, ih]
    simp

theorem qlist_sum_map_const {α : Type} (l : List α) (x : ℚ) :
    (l.map (fun _ => x)).sum = l.length * x := by
  induction l with
  | nil => simp
  | cons a t ih =>
    simp [ih]
    ring

theorem sum_range_cast_id (n : ℕ) :
    ∑ k ∈ Finset.range n, (k : ℚ) = n * (n - 1) / 2 := by
  induction n with
  | zero => simp
  | succ m ih =>
    rw [Finset.sum_range_succ, ih]
    push_cast
    ring

theorem getD_drop_eq {α : Type} (full : List α) (i k : ℕ) (d : α)
    (h : i + k < full.length) :
    (full.drop i).getD k d = full.getD (i + k) d := by
  rw [List.getD_eq_getElem _ _ (by rw [List.length_drop]; omega),
    List.getD_eq_getElem _ _ h]
  exact List.getElem_drop full

theorem awardAux_map_fst (n : ℕ) :
    ∀ (m i : ℕ) (l : List StratMean), l.length = m →
      (awardAux n i l).map (fun x => x.1) = l := by
  intro m
  induction m using Nat.strong_induction_on with
  | _ m ih =>
    intro i l hlen
    cases l with
    | nil => rw [awardAux]; rfl
    | cons e rest =>
      have hm : rest.length + 1 = m := by simpa using hlen
      rw [awardAux]
      rw [List.map_append]
      have hrec := ih ((rest.drop (rest.takeWhile (fun x => x.2 = e.2)).length).length)
        (by rw [List.length_drop]; omega)
        (i + ((rest.takeWhile (fun x => x.2 = e.2)).length + 1))
        (rest.drop (rest.takeWhile (fun x => x.2 = e.2)).length) rfl
      rw [hrec]
      have hsplit : rest.takeWhile (fun x => x.2 = e.2) ++
          rest.drop (rest.takeWhile (fun x => x.2 = e.2)).length = rest := by
        rw [drop_length_takeWhile]
        exact List.takeWhile_append_dropWhile _ _
      have hblock : List.map (fun x : StratMean × ℚ => x.1)
          ((e :: rest.takeWhile (fun x => x.2 = e.2)).map (fun x =>
            (x, (((List.range ((rest.takeWhile (fun x => x.2 = e.2)).length + 1)).map
              (fun k => (n : ℚ) - ((i + k : ℕ) : ℚ))).sum) /
              (((rest.takeWhile (fun x => x.2 = e.2)).length + 1 : ℕ) : ℚ)))) =
          e :: rest.takeWhile (fun x => x.2 = e.2) := by
        rw [List.map_map]
        exact List.map_id _
      rw [hblock, List.cons_append, hsplit]

theorem awardAux_snd_sum (n : ℕ) :
    ∀ (m i : ℕ) (l : List StratMean), l.length = m →
      ((awardAux n i l).map (fun x => x.2)).sum =
        ∑ k ∈ Finset.range l.length, ((n : ℚ) - ((i + k : ℕ) : ℚ)) := by
  intro m
  induction m using Nat.strong_induction_on with
  | _ m ih =>
    intro i l hlen
    cases l with
    | nil => rw [awardAux]; simp
    | cons e rest =>
      have hm : rest.length + 1 = m := by simpa using hlen
      have htle : (rest.takeWhile (fun x => x.2 = e.2)).length ≤ rest.length :=
        (List.takeWhile_sublist _).length_le
      rw [awardAux]
      rw [List.map_append, List.sum_append]
      have hrec := ih ((rest.drop (rest.takeWhile (fun x => x.2 = e.2)).length).length)
        (by rw [List.length_drop]; omega)
        (i + ((rest.takeWhile (fun x => x.2 = e.2)).length + 1))
        (rest.drop (rest.takeWhile (fun x => x.2 = e.2)).length) rfl
      rw [hrec]
      have hblock : List.map (fun x : StratMean × ℚ => x.2)
          ((e :: rest.takeWhile (fun x => x.2 = e.2)).map (fun x =>
            (x, (((List.range ((rest.takeWhile (fun x => x.2 = e.2)).length + 1)).map
              (fun k => (n : ℚ) - ((i + k : ℕ) : ℚ))).sum) /
              (((rest.takeWhile (fun x => x.2 = e.2)).length + 1 : ℕ) : ℚ)))) =
          (e :: rest.takeWhile (fun x => x.2 = e.2)).map (fun _ =>
            (((List.range ((rest.takeWhile (fun x => x.2 = e.2)).length + 1)).map
              (fun k => (n : ℚ) - ((i + k : ℕ) : ℚ))).sum) /
              (((rest.takeWhile (fun x => x.2 = e.2)).length + 1 : ℕ) : ℚ)) := by
        rw [List.map_map]
        rfl
      rw [hblock, qlist_sum_map_const]
      rw [list_range_sum_eq]
      set t := (rest.takeWhile (fun x => x.2 = e.2)).length with ht
      set str := rest.length with hsr
      have hlen2 : (rest.drop t).length = str - t := by
        rw [List.length_drop]
      rw [hlen2]
      have hcard : (((e :: rest.takeWhile (fun x => x.2 = e.2)).length : ℕ) : ℚ) =
          ((t + 1 : ℕ) : ℚ) := by
        norm_num [ht]
      rw [List.length_cons, ← ht]
      have hne : ((t + 1 : ℕ) : ℚ) ≠ 0 := by
        push_cast
        positivity
      rw [mul_div_cancel₀ _ hne]
      have hsplit1 : ∑ k ∈ Finset.range (t + 1), ((n : ℚ) - ((i + k : ℕ) : ℚ)) =
          ∑ j ∈ Finset.Ico i (i + (t + 1)), ((n : ℚ) - (j : ℚ)) := by
        rw [Finset.sum_Ico_eq_sum_range]
        simp
      have hsplit2 : ∑ k ∈ Finset.range (str - t), ((n : ℚ) - ((i + (t + 1) + k : ℕ) : ℚ)) =
          ∑ j ∈ Finset.Ico (i + (t + 1)) (i + (t + 1) + (str - t)), ((n : ℚ) - (j : ℚ)) := by
        rw [Finset.sum_Ico_eq_sum_range]
        simp
      have hsplit3 : ∑ k ∈ Finset.range (str + 1), ((n : ℚ) - ((i + k : ℕ) : ℚ)) =
          ∑ j ∈ Finset.Ico i (i + (str + 1)), ((n : ℚ) - (j : ℚ)) := by
        rw [Finset.sum_Ico_eq_sum_range]
        simp
      have hlc : (e :: rest).length = str + 1 := by simp [hsr]
      rw [hsplit1, hsplit2, hlc, hsplit3]
      have harith : i + (t + 1) + (str - t) = i + (str + 1) := by omega
      rw [harith]
      exact Finset.sum_Ico_consecutive _ (by omega) (by omega)

theorem awardAux_getD_block (n : ℕ) (full : List StratMean)
    (hmono : ∀ j k, j ≤ k → k < full.length →
      (full.getD j ("", 0)).2 ≤ (full.getD k ("", 0)).2) :
    ∀ (m i : ℕ) (l : List StratMean), l.length = m → l = full.drop i →
      (∀ j k, j < i → i ≤ k → k < full.length →
        (full.getD j ("", 0)).2 < (full.getD k ("", 0)).2) →
      ∀ p, p < l.length →
        ((awardAux n i l).getD p (("", 0), 0)).2 =
          (((Finset.range full.length).filter (fun j =>
              (full.getD j ("", 0)).2 = (full.getD (i + p) ("", 0)).2)).sum
            (fun j => (n : ℚ) - (j : ℚ))) /
          ((((Finset.range full.length).filter (fun j =>
              (full.getD j ("", 0)).2 = (full.getD (i + p) ("", 0)).2)).card : ℕ) : ℚ) := by
  intro m
  induction m using Nat.strong_induction_on with
  | _ m ih =>
    intro i l hlen hdrop hprev p hp
    cases l with
    | nil => simp at hp
    | cons e rest =>
      have hm : rest.length + 1 = m := by simpa using hlen
      have htle : (rest.takeWhile (fun x => x.2 = e.2)).length ≤ rest.length :=
        (List.takeWhile_sublist _).length_le
      have hil : i + (e :: rest).length = full.length := by
        have h1 : (full.drop i).length = full.length - i := List.length_drop i full
        rw [← hdrop] at h1
        have h2 : 1 ≤ (e :: rest).length := by simp
        omega
      have hlc : (e :: rest).length = rest.length + 1 := by simp
      have hfull : ∀ k, i + k < full.length →
          full.getD (i + k) ("", 0) = (e :: rest).getD k ("", 0) := by
        intro k hk
        rw [hdrop]
        exact (getD_drop_eq full i k ("", 0) hk).symm
      have hsplitw : rest.takeWhile (fun x => x.2 = e.2) ++
          rest.drop (rest.takeWhile (fun x => x.2 = e.2)).length = rest := by
        rw [drop_length_takeWhile]
        exact List.takeWhile_append_dropWhile _ _
      have hblockl : ∀ k, k < (rest.takeWhile (fun x => x.2 = e.2)).length + 1 →
          (((e :: rest).getD k ("", 0))).2 = e.2 := by
        intro k hk
        cases k with
        | zero => rfl
        | succ k' =>
          rw [List.getD_cons_succ]
          have hk' : k' < (rest.takeWhile (fun x => x.2 = e.2)).length := by omega
          rw [← hsplitw, List.getD_append _ _ _ _ hk']
          have hmem : (rest.takeWhile (fun x => x.2 = e.2)).getD k' ("", 0) ∈
              rest.takeWhile (fun x => x.2 = e.2) := by
            rw [List.getD_eq_getElem _ _ hk']
            exact List.getElem_mem hk'
          have := List.mem_takeWhile_imp hmem
          simpa using this
      have hblockfull : ∀ k, k < (rest.takeWhile (fun x => x.2 = e.2)).length + 1 →
          (full.getD (i + k) ("", 0)).2 = e.2 := by
        intro k hk
        rw [hfull k (by omega)]
        exact hblockl k hk
      have hbound : i + ((rest.takeWhile (fun x => x.2 = e.2)).length + 1) < full.length →
          e.2 < (full.getD (i + ((rest.takeWhile (fun x => x.2 = e.2)).length + 1))
            ("", 0)).2 := by
        intro hb
        have hlt : (rest.takeWhile (fun x => x.2 = e.2)).length < rest.length := by omega
        have h1 := hfull ((rest.takeWhile (fun x => x.2 = e.2)).length + 1) hb
        rw [h1, List.getD_cons_succ]
        have h2 : rest.drop (rest.takeWhile (fun x => x.2 = e.2)).length =
            rest.dropWhile (fun x => x.2 = e.2) := drop_length_takeWhile _ rest
        have h3 : rest.getD (rest.takeWhile (fun x => x.2 = e.2)).length ("", 0) =
            (rest.drop (rest.takeWhile (fun x => x.2 = e.2)).length).getD 0 ("", 0) := by
          simp
        cases hdw : rest.dropWhile (fun x => x.2 = e.2) with
        | nil =>
          exfalso
          have := congrArg List.length (h2.trans hdw)
          rw [List.length_drop] at this
          simp at this
          omega
        | cons y ys =>
          have hpy := dropWhile_head_not (fun x : StratMean => decide (x.2 = e.2)) rest y ys hdw
          have hyne : ¬y.2 = e.2 := by simpa using hpy
          have h4 : rest.getD (rest.takeWhile (fun x => x.2 = e.2)).length ("", 0) = y := by
            rw [h3, h2, hdw]
            rfl
          rw [h4]
          have h5 : (full.getD i ("", 0)).2 = e.2 := by
            have := hblockfull 0 (by omega)
            simpa using this
          have h6 := hmono i (i + ((rest.takeWhile (fun x => x.2 = e.2)).length + 1))
            (by omega) hb
          rw [h5, h1, List.getD_cons_succ, h4] at h6
          exact lt_of_le_of_ne h6 (fun hcon => hyne hcon.symm)
      have hfundamental : ∀ q, q < (rest.takeWhile (fun x => x.2 = e.2)).length + 1 →
          ((Finset.range full.length).filter (fun j =>
            (full.getD j ("", 0)).2 = (full.getD (i + q) ("", 0)).2)) =
          Finset.Ico i (i + ((rest.takeWhile (fun x => x.2 = e.2)).length + 1)) := by
        intro q hq
        have hq2 : (full.getD (i + q) ("", 0)).2 = e.2 := hblockfull q hq
        ext j
        simp only [Finset.mem_filter, Finset.mem_range, Finset.mem_Ico, hq2]
        constructor
        · rintro ⟨hjl, hje⟩
          constructor
          · by_contra hji
            push_neg at hji
            have hcontra := hprev j (i + q) hji (by omega) (by omega)
            rw [hq2, hje] at hcontra
            exact lt_irrefl _ hcontra
          · by_contra hge
            push_neg at hge
            have hb : i + ((rest.takeWhile (fun x => x.2 = e.2)).length + 1) <
                full.length := by omega
            have h6 := hbound hb
            have h7 := hmono (i + ((rest.takeWhile (fun x => x.2 = e.2)).length + 1)) j
              hge hjl
            have hcontra : e.2 < (full.getD j ("", 0)).2 := lt_of_lt_of_le h6 h7
            rw [hje] at hcontra
            exact lt_irrefl _ hcontra
        · rintro ⟨hij, hjlt⟩
          have hjl : j < full.length := by omega
          refine ⟨hjl, ?_⟩
          have hjw : j = i + (j - i) := by omega
          rw [hjw]
          exact hblockfull (j - i) (by omega)
      by_cases hpt : p < (rest.takeWhile (fun x => x.2 = e.2)).length + 1
      · rw [awardAux]
        have hblen : ((e :: rest.takeWhile (fun x => x.2 = e.2)).map (fun x =>
            (x, (((List.range ((rest.takeWhile (fun x => x.2 = e.2)).length + 1)).map
              (fun k => (n : ℚ) - ((i + k : ℕ) : ℚ))).sum) /
              (((rest.takeWhile (fun x => x.2 = e.2)).length + 1 : ℕ) : ℚ)))).length =
            (rest.takeWhile (fun x => x.2 = e.2)).length + 1 := by
          simp
        rw [List.getD_append _ _ _ _ (by rw [hblen]; exact hpt)]
        have hgm : (((e :: rest.takeWhile (fun x => x.2 = e.2)).map (fun x =>
            (x, (((List.range ((rest.takeWhile (fun x => x.2 = e.2)).length + 1)).map
              (fun k => (n : ℚ) - ((i + k : ℕ) : ℚ))).sum) /
              (((rest.takeWhile (fun x => x.2 = e.2)).length + 1 : ℕ) : ℚ)))).getD p
            (("", 0), 0)).2 =
            (((List.range ((rest.takeWhile (fun x => x.2 = e.2)).length + 1)).map
              (fun k => (n : ℚ) - ((i + k : ℕ) : ℚ))).sum) /
              (((rest.takeWhile (fun x => x.2 = e.2)).length + 1 : ℕ) : ℚ) := by
          rw [List.getD_eq_getElem _ _ (by rw [hblen]; exact hpt), List.getElem_map]
        rw [hgm, hfundamental p hpt, Nat.card_Ico]
        have hsub : i + ((rest.takeWhile (fun x => x.2 = e.2)).length + 1) - i =
            (rest.takeWhile (fun x => x.2 = e.2)).length + 1 := by omega
        rw [hsub, Finset.sum_Ico_eq_sum_range, hsub, list_range_sum_eq]
      · push_neg at hpt
        rw [awardAux]
        have hblen : ((e :: rest.takeWhile (fun x => x.2 = e.2)).map (fun x =>
            (x, (((List.range ((rest.takeWhile (fun x => x.2 = e.2)).length + 1)).map
              (fun k => (n : ℚ) - ((i + k : ℕ) : ℚ))).sum) /
              (((rest.takeWhile (fun x => x.2 = e.2)).length + 1 : ℕ) : ℚ)))).length =
            (rest.takeWhile (fun x => x.2 = e.2)).length + 1 := by
          simp
        rw [List.getD_append_right _ _ _ _ (by rw [hblen]; exact hpt), hblen]
        have hdrop2 : rest.drop (rest.takeWhile (fun x => x.2 = e.2)).length =
            full.drop (i + ((rest.takeWhile (fun x => x.2 = e.2)).length + 1)) := by
          have hdd : full.drop (i + ((rest.takeWhile (fun x => x.2 = e.2)).length + 1)) =
              (full.drop i).drop ((rest.takeWhile (fun x => x.2 = e.2)).length + 1) := by
            rw [List.drop_drop]
          rw [hdd, ← hdrop]
          rfl
        have hprev2 : ∀ j k, j < i + ((rest.takeWhile (fun x => x.2 = e.2)).length + 1) →
            i + ((rest.takeWhile (fun x => x.2 = e.2)).length + 1) ≤ k → k < full.length →
            (full.getD j ("", 0)).2 < (full.getD k ("", 0)).2 := by
          intro j k hj hk hkl
          have hb : i + ((rest.takeWhile (fun x => x.2 = e.2)).length + 1) <
              full.length := by omega
          by_cases hji : j < i
          · exact hprev j k hji (by omega) hkl
          · push_neg at hji
            have hje : (full.getD j ("", 0)).2 = e.2 := by
              have := hblockfull (j - i) (by omega)
              rw [show i + (j - i) = j from by omega] at this
              exact this
            have h6 := hbound hb
            have h7 := hmono (i + ((rest.takeWhile (fun x => x.2 = e.2)).length + 1)) k
              hk hkl
            rw [hje]
            exact lt_of_lt_of_le h6 h7
        have hrec := ih ((rest.drop (rest.takeWhile (fun x => x.2 = e.2)).length).length)
          (by rw [List.length_drop]; omega)
          (i + ((rest.takeWhile (fun x => x.2 = e.2)).length + 1))
          (rest.drop (rest.takeWhile (fun x => x.2 = e.2)).length) rfl hdrop2 hprev2
          (p - ((rest.takeWhile (fun x => x.2 = e.2)).length + 1))
          (by
            rw [List.length_drop]
            have hple : p < rest.length + 1 := by
              rw [← hlc]
              exact hp
            omega)
        rw [show i + ((rest.takeWhile (fun x => x.2 = e.2)).length + 1) +
            (p - ((rest.takeWhile (fun x => x.2 = e.2)).length + 1)) = i + p from
          by omega] at hrec
        exact hrec

/-- C3: within a round of `N` strategies, `compute_leaderboard` ranks the
strategies ascending by mean guesses (the ranked list is a sorted
permutation of the round's entries, in that order in the awarded list);
the strategy at 0-based rank `p` receives the arithmetic mean of the
point values `N - j` over exactly the ranks `j` tied with `p` on mean
guesses (for an untied strategy that is `N - p`, i.e. `N - r + 1` at
1-based rank `r`); and the points awarded in the round sum to
`N(N+1)/2`. -/
theorem leaderboard_points_spec (strats : List StratMean) :
    ((rankedByMean strats).Perm strats ∧
      List.Pairwise (fun a b : StratMean => a.2 ≤ b.2) (rankedByMean strats)) ∧
    (roundPoints strats).map (fun x => x.1) = rankedByMean strats ∧
    (∀ p, p < strats.length →
      ((roundPoints strats).getD p (("", 0), 0)).2 =
        (((Finset.range strats.length).filter (fun j =>
            ((rankedByMean strats).getD j ("", 0)).2 =
              ((rankedByMean strats).getD p ("", 0)).2)).sum
          (fun j => (strats.length : ℚ) - (j : ℚ))) /
        ((((Finset.range strats.length).filter (fun j =>
            ((rankedByMean strats).getD j ("", 0)).2 =
              ((rankedByMean strats).getD p ("", 0)).2)).card : ℕ) : ℚ)) ∧
    ((roundPoints strats).map (fun x => x.2)).sum =
      (strats.length : ℚ) * ((strats.length : ℚ) + 1) / 2 := by
  have hsortB : List.Pairwise (fun a b : StratMean => decide (a.2 ≤ b.2) = true)
      (strats.mergeSort (fun a b => decide (a.2 ≤ b.2))) :=
    List.sorted_mergeSort
      (fun a b c hab hbc => by
        simp only [decide_eq_true_eq] at hab hbc ⊢
        exact le_trans hab hbc)
      (fun a b => by
        simp only [Bool.or_eq_true, decide_eq_true_eq]
        exact le_total a.2 b.2)
      strats
  have hsorted : List.Pairwise (fun a b : StratMean => a.2 ≤ b.2)
      (rankedByMean strats) := by
    rw [rankedByMean]
    exact hsortB.imp (fun h => by simpa using h)
  have hperm : (rankedByMean strats).Perm strats := by
    rw [rankedByMean]
    exact List.mergeSort_perm strats _
  have hlen : (rankedByMean strats).length = strats.length := hperm.length_eq
  have hmono : ∀ j k, j ≤ k → k < (rankedByMean strats).length →
      ((rankedByMean strats).getD j ("", 0)).2 ≤
        ((rankedByMean strats).getD k ("", 0)).2 := by
    intro j k hjk hk
    rcases Nat.eq_or_lt_of_le hjk with heq | hlt
    · rw [heq]
    · rw [List.getD_eq_getElem _ _ (lt_trans hlt hk), List.getD_eq_getElem _ _ hk]
      exact List.pairwise_iff_getElem.mp hsorted j k (lt_trans hlt hk) hk hlt
  have hfst : (roundPoints strats).map (fun x => x.1) = rankedByMean strats := by
    rw [roundPoints]
    exact awardAux_map_fst strats.length (rankedByMean strats).length 0
      (rankedByMean strats) rfl
  have hpts : ∀ p, p < strats.length →
      ((roundPoints strats).getD p (("", 0), 0)).2 =
        (((Finset.range strats.length).filter (fun j =>
            ((rankedByMean strats).getD j ("", 0)).2 =
              ((rankedByMean strats).getD p ("", 0)).2)).sum
          (fun j => (strats.length : ℚ) - (j : ℚ))) /
        ((((Finset.range strats.length).filter (fun j =>
            ((rankedByMean strats).getD j ("", 0)).2 =
              ((rankedByMean strats).getD p ("", 0)).2)).card : ℕ) : ℚ) := by
    intro p hp
    have hp2 : p < (rankedByMean strats).length := by
      rw [hlen]
      exact hp
    have hrec := awardAux_getD_block strats.length (rankedByMean strats) hmono
      (rankedByMean strats).length 0 (rankedByMean strats) rfl
      (List.drop_zero _).symm
      (fun j k hj _ _ => absurd hj (Nat.not_lt_zero j))
      p hp2
    simp only [Nat.zero_add] at hrec
    rw [hlen] at hrec
    rw [roundPoints]
    exact hrec
  have hsum : ((roundPoints strats).map (fun x => x.2)).sum =
      (strats.length : ℚ) * ((strats.length : ℚ) + 1) / 2 := by
    rw [roundPoints]
    have h := awardAux_snd_sum strats.length (rankedByMean strats).length 0
      (rankedByMean strats) rfl
    rw [hlen] at h
    rw [h]
    simp only [Nat.zero_add]
    rw [Finset.sum_sub_distrib, Finset.sum_const, Finset.card_range,
      sum_range_cast_id, nsmul_eq_mul]
    ring
  exact ⟨⟨hperm, hsorted⟩, hfst, hpts, hsum⟩

/-- Witness for C3: on the concrete tied round `wStrats`, rank 0 exists
and its points are the tied-block average given by the theorem. -/
theorem leaderboard_points_spec_witness :
    0 < wStrats.length ∧
    ((roundPoints wStrats).getD 0 (("", 0), 0)).2 =
      (((Finset.range wStrats.length).filter (fun j =>
          ((rankedByMean wStrats).getD j ("", 0)).2 =
            ((rankedByMean wStrats).getD 0 ("", 0)).2)).sum
        (fun j => (wStrats.length : ℚ) - (j : ℚ))) /
      ((((Finset.range wStrats.length).filter (fun j =>
          ((rankedByMean wStrats).getD j ("", 0)).2 =
            ((rankedByMean wStrats).getD 0 ("", 0)).2)).card : ℕ) : ℚ) :=
  ⟨by decide, (leaderboard_points_spec wStrats).2.2.1 0 (by decide)⟩
